import Mathlib

/-!
Verification of the Price-Scanner web application (`src/BarcodeWebApp/app.js`
and the service worker source file).

The development shallowly embeds the two components of the program:

* the price ledger (`loadPrices` and the save-price click handler from
  `app.js`), including a character-level model of the platform primitives
  the handlers call: `JSON.parse`, `JSON.stringify`, `parseFloat`,
  `Number.isNaN` and `Number.prototype.toFixed`;
* the service-worker asset cache (install / activate / fetch listeners).

Modelling conventions for the platform primitives (which are not part of the
repository, so they are translated from their ECMAScript/WHATWG semantics):

* JavaScript numbers are modelled as exact values: `JsNum` is either an
  exact rational, an infinity, or NaN.  Binary-double rounding is not
  modelled; every numeric literal appearing in the claims is treated
  exactly.  Consequently `JSON.stringify` is modelled as printing an exact
  decimal (in mantissa/exponent form `Me-k`), mirroring the platform
  guarantee that stringifying a number and parsing it back recovers the
  same number; the concrete spelling of the digit string is not observable
  by any claim.
* `JSON.parse` is a full character-level parser for the JSON grammar
  (objects, arrays, strings with escapes, numbers, literals); it returns
  `none` exactly where `JSON.parse` throws a `SyntaxError`.  `\uXXXX`
  escapes outside the scalar range are approximated by `Char.ofNat`'s
  default; no claim exercises them.
* `parseFloat` implements the ECMAScript longest-valid-prefix decimal
  grammar (sign, `Infinity`, digits/fraction/exponent with backtracking on
  an incomplete exponent part).
* DOM state touched by the handlers (the hidden class of the price-entry
  form, the rendered list, the scanned-code span, the input field) and the
  Quagga scanner subscription state are carried in an explicit `AppState`
  record; a thrown exception is an `Except.error`.

All recursive executable definitions are structural (lists, explicit fuel),
so closed instances evaluate inside the kernel.
-/

namespace PriceScanner

/-! ### Decimal digits -/

/-- Numeric value of a decimal digit character (`'0'` ↦ 0, …, `'9'` ↦ 9). -/
def digitVal (c : Char) : Nat := c.toNat - 48

/-- The decimal digit character for `d < 10`. -/
def digitChar (d : Nat) : Char := Char.ofNat (48 + d)

/-- Value of a big-endian digit string, most significant digit first. -/
def digitsVal (l : List Char) : Nat := l.foldl (fun a c => 10 * a + digitVal c) 0

/-- Big-endian decimal digit string of a natural number; `fuel`-structured
so that the kernel can evaluate it (`natDigits` supplies enough fuel). -/
def natDigitsAux : Nat → Nat → List Char
  | 0, _ => []
  | fuel + 1, n => if n < 10 then [digitChar n] else natDigitsAux fuel (n / 10) ++ [digitChar (n % 10)]

/-- Canonical decimal digit string of a natural number (no leading zeros;
`"0"` for zero). -/
def natDigits (n : Nat) : List Char := natDigitsAux (n + 1) n

/-! ### JavaScript numbers

`JsNum` models an ECMAScript number as an exact value: a rational, one of
the infinities, or NaN.  Binary-double rounding is not modelled. -/

inductive JsNum where
  | fin (q : ℚ)
  | inf
  | negInf
  | nan

deriving DecidableEq

/-- `isNaN` as applied by the save handler to the result of `parseFloat`. -/
def JsNum.isNaN : JsNum → Bool
  | .nan => true
  | _ => false

/-- Finite-number test (`Number.isFinite`). -/
def JsNum.isFinite : JsNum → Bool
  | .fin _ => true
  | _ => false

/-! ### `parseFloat`

Model of the ECMAScript `parseFloat` builtin called at the top of the
save-price click handler: skip leading whitespace, then read the longest
prefix matching *StrDecimalLiteral* (optional sign, `Infinity` or
digits / fraction / exponent, where an incomplete exponent part is
backtracked), yielding NaN when no prefix matches. -/

/-- Whitespace skipped by `parseFloat` (ASCII part of *StrWhiteSpace*). -/
def wsChar (c : Char) : Bool :=
  c = ' ' || c = '\t' || c = '\n' || c = '\r' || c = '\x0b' || c = '\x0c'

/-- Split a character list into its longest digit-run head and the rest. -/
def readDigits (l : List Char) : List Char × List Char :=
  (l.takeWhile Char.isDigit, l.dropWhile Char.isDigit)

/-- Exact value of a parsed decimal literal: sign, integer digits,
fraction digits and decimal exponent.  Computed with integer arithmetic
and a single `mkRat` so the kernel can evaluate it. -/
def decValue (neg : Bool) (ip fp : List Char) (e : Int) : ℚ :=
  let mAbs : Int := ((digitsVal ip * 10 ^ fp.length + digitsVal fp : Nat) : Int)
  let m : Int := if neg then -mAbs else mAbs
  let E : Int := e - fp.length
  if 0 ≤ E then mkRat (m * 10 ^ E.toNat) 1 else mkRat m (10 ^ (-E).toNat)

/-- Decimal exponent part of `parseFloat`'s grammar: contributes `0`
(and is not consumed) unless `e`/`E`, an optional sign and at least one
digit are present. -/
def readExpFloat (l : List Char) : Int :=
  match l with
  | c :: rest =>
    if c = 'e' || c = 'E' then
      match rest with
      | '+' :: r2 => if (readDigits r2).1 = [] then 0 else ((digitsVal (readDigits r2).1 : Nat) : Int)
      | '-' :: r2 => if (readDigits r2).1 = [] then 0 else -((digitsVal (readDigits r2).1 : Nat) : Int)
      | r2 => if (readDigits r2).1 = [] then 0 else ((digitsVal (readDigits r2).1 : Nat) : Int)
    else 0
  | [] => 0

/-- `parseFloat` after the optional sign has been consumed. -/
def parseFloatAfterSign (neg : Bool) (l : List Char) : JsNum :=
  if l.take 8 = "Infinity".data then (if neg then JsNum.negInf else JsNum.inf)
  else
    match (readDigits l).2 with
    | c :: r2 =>
      if c = '.' then
        if (readDigits l).1 = [] && (readDigits r2).1 = [] then JsNum.nan
        else JsNum.fin (decValue neg (readDigits l).1 (readDigits r2).1
          (readExpFloat (readDigits r2).2))
      else if (readDigits l).1 = [] then JsNum.nan
      else JsNum.fin (decValue neg (readDigits l).1 [] (readExpFloat (c :: r2)))
    | [] =>
      if (readDigits l).1 = [] then JsNum.nan
      else JsNum.fin (decValue neg (readDigits l).1 [] (readExpFloat []))

/-- The ECMAScript `parseFloat` builtin. -/
def parseFloat (s : String) : JsNum :=
  match s.data.dropWhile wsChar with
  | [] => parseFloatAfterSign false []
  | c :: r =>
    if c = '+' then parseFloatAfterSign false r
    else if c = '-' then parseFloatAfterSign true r
    else parseFloatAfterSign false (c :: r)

/-! ### Decimal denominators

`JSON.stringify` (modelled below) prints a finite number `q` exactly when
`q.den ∣ 10 ^ q.den`; every number produced by `parseFloat` or `JSON.parse`
satisfies this. -/

/-- `q` has an exact finite decimal expansion (witnessed with exponent
`q.den`). -/
def DecDen (q : ℚ) : Prop := q.den ∣ 10 ^ q.den

instance (q : ℚ) : Decidable (DecDen q) := inferInstanceAs (Decidable (_ ∣ _))

/-! ### JSON values

JavaScript values flowing through `JSON.parse` / `JSON.stringify` and the
in-memory price object.  `Jarr` and `Jobj` are specialised list types so
that all recursion stays structural (kernel-reducible).  `Jobj` preserves
property insertion order, which is how a plain string-keyed object
enumerates; the integer-like-keys-first reordering of `Object.keys` is not
modelled (no claim observes entry order). -/

mutual
inductive Jval where
  | jnull
  | jbool (b : Bool)
  | jnum (x : JsNum)
  | jstr (s : String)
  | jarr (xs : Jarr)
  | jobj (fs : Jobj)
deriving DecidableEq

inductive Jarr where
  | nil
  | cons (hd : Jval) (tl : Jarr)
deriving DecidableEq

inductive Jobj where
  | nil
  | cons (k : String) (v : Jval) (tl : Jobj)
deriving DecidableEq
end

/-- Property names of an object, in insertion order. -/
def Jobj.keys : Jobj → List String
  | .nil => []
  | .cons k _ tl => k :: tl.keys

/-- Property lookup (keys are unique in any object produced by the model). -/
def Jobj.lookup : Jobj → String → Option Jval
  | .nil, _ => none
  | .cons k v tl, c => if c = k then some v else tl.lookup c

/-- The JavaScript assignment `obj[c] = v`: overwrite the existing property
in place, or append a new one.  This is both what the save handler does to
the parsed mapping and how `JSON.parse` treats duplicate keys. -/
def Jobj.setKey : Jobj → String → Jval → Jobj
  | .nil, c, v => .cons c v .nil
  | .cons k w tl, c, v => if c = k then .cons k v tl else .cons k w (tl.setKey c v)

def Jarr.length : Jarr → Nat
  | .nil => 0
  | .cons _ tl => tl.length + 1

def Jarr.get? : Jarr → Nat → Option Jval
  | .nil, _ => none
  | .cons v _, 0 => some v
  | .cons _ tl, n + 1 => tl.get? n

/-! ### `JSON.parse`

A character-level parser for the JSON grammar (RFC 8259), returning `none`
exactly where `JSON.parse` throws a `SyntaxError`.  Recursion into nested
values is structured by explicit fuel; `jsonParse` supplies more fuel than
any input of its length can consume. -/

/-- JSON insignificant whitespace. -/
def jws (c : Char) : Bool := c = ' ' || c = '\t' || c = '\n' || c = '\r'

def skipW (l : List Char) : List Char := l.dropWhile jws

def parseHexDigit (c : Char) : Option Nat :=
  if c.isDigit then some (c.toNat - 48)
  else if 'a' ≤ c && c ≤ 'f' then some (c.toNat - 87)
  else if 'A' ≤ c && c ≤ 'F' then some (c.toNat - 55)
  else none

/-- Body of a JSON string literal, after the opening quote.  Returns the
decoded characters and the input following the closing quote.  A `\uXXXX`
escape is decoded with `Char.ofNat` (surrogate halves collapse to the
default character; no claim exercises them). -/
def parseStrBody : List Char → Option (List Char × List Char)
  | [] => none
  | c :: rest =>
    if c = '"' then some ([], rest)
    else if c = '\\' then
      match rest with
      | [] => none
      | e :: r2 =>
        if e = '"' then (parseStrBody r2).map (fun p => ('"' :: p.1, p.2))
        else if e = '\\' then (parseStrBody r2).map (fun p => ('\\' :: p.1, p.2))
        else if e = '/' then (parseStrBody r2).map (fun p => ('/' :: p.1, p.2))
        else if e = 'b' then (parseStrBody r2).map (fun p => ('\x08' :: p.1, p.2))
        else if e = 'f' then (parseStrBody r2).map (fun p => ('\x0c' :: p.1, p.2))
        else if e = 'n' then (parseStrBody r2).map (fun p => ('\n' :: p.1, p.2))
        else if e = 'r' then (parseStrBody r2).map (fun p => ('\r' :: p.1, p.2))
        else if e = 't' then (parseStrBody r2).map (fun p => ('\t' :: p.1, p.2))
        else if e = 'u' then
          match r2 with
          | h1 :: h2 :: h3 :: h4 :: r3 =>
            match parseHexDigit h1, parseHexDigit h2, parseHexDigit h3, parseHexDigit h4 with
            | some a, some b, some c2, some d =>
              (parseStrBody r3).map
                (fun p => (Char.ofNat (((a * 16 + b) * 16 + c2) * 16 + d) :: p.1, p.2))
            | _, _, _, _ => none
          | _ => none
        else none
    else if c.toNat < 32 then none
    else (parseStrBody rest).map (fun p => (c :: p.1, p.2))

/-- JSON integer part: `0`, or a nonzero digit followed by digits. -/
def parseIntPart (l : List Char) : Option (List Char × List Char) :=
  match l with
  | [] => none
  | c :: r =>
    if c = '0' then some (['0'], r)
    else if c.isDigit then some (c :: (readDigits r).1, (readDigits r).2)
    else none

/-- Exponent part of a JSON number (strict: `e`/`E` must be followed by an
optional sign and at least one digit), then assemble the value. -/
def parseJNumExp (neg : Bool) (ip fp : List Char) (l : List Char) : Option (ℚ × List Char) :=
  match l with
  | c :: r =>
    if c = 'e' || c = 'E' then
      match r with
      | '+' :: r2 =>
        if (readDigits r2).1 = [] then none
        else some (decValue neg ip fp ((digitsVal (readDigits r2).1 : Nat) : Int),
          (readDigits r2).2)
      | '-' :: r2 =>
        if (readDigits r2).1 = [] then none
        else some (decValue neg ip fp (-((digitsVal (readDigits r2).1 : Nat) : Int)),
          (readDigits r2).2)
      | r2 =>
        if (readDigits r2).1 = [] then none
        else some (decValue neg ip fp ((digitsVal (readDigits r2).1 : Nat) : Int),
          (readDigits r2).2)
    else some (decValue neg ip fp 0, l)
  | [] => some (decValue neg ip fp 0, [])

/-- JSON number after the optional minus sign. -/
def parseJNumBody (neg : Bool) (l : List Char) : Option (ℚ × List Char) :=
  match parseIntPart l with
  | none => none
  | some (ip, r1) =>
    match r1 with
    | '.' :: r2 =>
      if (readDigits r2).1 = [] then none
      else parseJNumExp neg ip (readDigits r2).1 (readDigits r2).2
    | _ => parseJNumExp neg ip [] r1

/-- A JSON number (strict grammar: no leading `+`, no leading zeros, a
fraction or exponent part must contain digits). -/
def parseJNum (l : List Char) : Option (ℚ × List Char) :=
  match l with
  | [] => none
  | c :: r => if c = '-' then parseJNumBody true r else parseJNumBody false (c :: r)

/-- Consume an expected literal tail (e.g. `ull` after `n`). -/
def dropLit : List Char → List Char → Option (List Char)
  | [], l => some l
  | c :: p, x :: xs => if x = c then dropLit p xs else none
  | _ :: _, [] => none

mutual
/-- One JSON value.  Leading whitespace must already be consumed. -/
def parseV : Nat → List Char → Option (Jval × List Char)
  | 0, _ => none
  | fuel + 1, l =>
    match l with
    | [] => none
    | c :: r =>
      if c = '"' then (parseStrBody r).map (fun p => (Jval.jstr (String.mk p.1), p.2))
      else if c = '\x7b' then
        match skipW r with
        | '\x7d' :: r2 => some (Jval.jobj .nil, r2)
        | r2 => (parseMembers fuel r2 .nil).map (fun p => (Jval.jobj p.1, p.2))
      else if c = '[' then
        match skipW r with
        | ']' :: r2 => some (Jval.jarr .nil, r2)
        | r2 => (parseElems fuel r2).map (fun p => (Jval.jarr p.1, p.2))
      else if c = 'n' then (dropLit "ull".data r).map (fun r2 => (Jval.jnull, r2))
      else if c = 't' then (dropLit "rue".data r).map (fun r2 => (Jval.jbool true, r2))
      else if c = 'f' then (dropLit "alse".data r).map (fun r2 => (Jval.jbool false, r2))
      else (parseJNum l).map (fun p => (Jval.jnum (JsNum.fin p.1), p.2))

/-- Non-empty comma-separated array elements, up to and including `]`. -/
def parseElems : Nat → List Char → Option (Jarr × List Char)
  | 0, _ => none
  | fuel + 1, l =>
    match parseV fuel l with
    | none => none
    | some (v, r) =>
      match skipW r with
      | ',' :: r2 => (parseElems fuel (skipW r2)).map (fun p => (Jarr.cons v p.1, p.2))
      | ']' :: r2 => some (Jarr.cons v .nil, r2)
      | _ => none

/-- Non-empty comma-separated object members, up to and including the
closing brace; duplicate keys overwrite in place, as property assignment
does. -/
def parseMembers : Nat → List Char → Jobj → Option (Jobj × List Char)
  | 0, _, _ => none
  | fuel + 1, l, acc =>
    match l with
    | c :: r =>
      if c = '"' then
        match parseStrBody r with
        | none => none
        | some (ks, r1) =>
          match skipW r1 with
          | ':' :: r2 =>
            match parseV fuel (skipW r2) with
            | none => none
            | some (v, r3) =>
              match skipW r3 with
              | ',' :: r4 => parseMembers fuel (skipW r4) (acc.setKey (String.mk ks) v)
              | '\x7d' :: r4 => some (acc.setKey (String.mk ks) v, r4)
              | _ => none
          | _ => none
      else none
    | [] => none
end

/-- The `JSON.parse` builtin: a complete value with only whitespace around
it; `none` models a thrown `SyntaxError`. -/
def jsonParse (s : String) : Option Jval :=
  match parseV (s.length + 2) (skipW s.data) with
  | some (v, r) => if skipW r = [] then some v else none
  | none => none

/-! ### `JSON.stringify`

Prints an exact decimal for every number with a finite decimal expansion,
in mantissa/exponent form `Me-k` with `k = q.den` (value-correct; see the
header comment on number modelling).  Nonfinite numbers print as `null`,
as `JSON.stringify` serialises them. -/

def hexDigit (d : Nat) : Char := if d < 10 then digitChar d else Char.ofNat (87 + d)

def printNum (x : JsNum) : List Char :=
  match x with
  | .fin q =>
    if q.den ∣ 10 ^ q.den then
      (if q.num * (((10 ^ q.den : Nat) / q.den : Nat) : Int) < 0 then
        '-' :: natDigits (q.num * (((10 ^ q.den : Nat) / q.den : Nat) : Int)).natAbs
      else natDigits (q.num * (((10 ^ q.den : Nat) / q.den : Nat) : Int)).natAbs) ++
        'e' :: '-' :: natDigits q.den
    else "null".data
  | _ => "null".data

def escChar (c : Char) : List Char :=
  if c = '"' then ['\\', '"']
  else if c = '\\' then ['\\', '\\']
  else if c = '\x08' then ['\\', 'b']
  else if c = '\x0c' then ['\\', 'f']
  else if c = '\n' then ['\\', 'n']
  else if c = '\r' then ['\\', 'r']
  else if c = '\t' then ['\\', 't']
  else if c.toNat < 32 then
    ['\\', 'u', '0', '0', hexDigit (c.toNat / 16), hexDigit (c.toNat % 16)]
  else [c]

def printStr (s : String) : List Char := '"' :: (s.data.map escChar).flatten ++ ['"']

mutual
def printVal : Jval → List Char
  | .jnull => "null".data
  | .jbool true => "true".data
  | .jbool false => "false".data
  | .jnum x => printNum x
  | .jstr s => printStr s
  | .jarr .nil => "[]".data
  | .jarr (.cons v tl) => '[' :: (printVal v ++ printElemsTail tl) ++ [']']
  | .jobj .nil => "\x7b\x7d".data
  | .jobj (.cons k v tl) =>
    '\x7b' :: (printStr k ++ ':' :: printVal v ++ printFieldsTail tl) ++ ['\x7d']

def printElemsTail : Jarr → List Char
  | .nil => []
  | .cons v tl => ',' :: printVal v ++ printElemsTail tl

def printFieldsTail : Jobj → List Char
  | .nil => []
  | .cons k v tl => ',' :: (printStr k ++ ':' :: printVal v) ++ printFieldsTail tl
end

/-- The `JSON.stringify` builtin (restricted to the value forms that can
reach it in this program). -/
def stringify (v : Jval) : String := String.mk (printVal v)

/-! ### Remaining platform primitives used by `app.js` -/

/-- `Number.prototype.toFixed(2)` on the exact value: the integer `n`
closest to `100·|x|` (ties towards the larger `n`), printed with two
fraction digits and the sign of `x`. -/
def toFixed2 (x : JsNum) : String :=
  match x with
  | .fin q =>
    let N : Nat := (200 * q.num.natAbs + q.den) / (2 * q.den)
    let ds := natDigits (N / 100) ++
      '.' :: (if N % 100 < 10 then '0' :: natDigits (N % 100) else natDigits (N % 100))
    String.mk (if q.num < 0 then '-' :: ds else ds)
  | .inf => "Infinity"
  | .negInf => "-Infinity"
  | .nan => "NaN"

/-- Thrown exceptions distinguished by the model. -/
inductive JsErr where
  | syntaxError
  | typeError

deriving DecidableEq

deriving instance DecidableEq for Except

/-- `x || d` for a `localStorage.getItem` result (`null` and `""` are
falsy). -/
def jsOr (x : Option String) (d : String) : String :=
  match x with
  | none => d
  | some s => if s = "" then d else s

/-- Truthiness test of the nullable-string session state (`!currentCode`,
`!code`): `null`/`undefined` and `""` are falsy. -/
def jsFalsyOpt : Option String → Bool
  | none => true
  | some s => s = ""

def natStr (n : Nat) : String := String.mk (natDigits n)

/-- `Object.keys`: own enumerable property names.  Objects enumerate in
insertion order (see `Jobj`); arrays and strings enumerate their indices;
primitives have none. -/
def jsKeys : Jval → List String
  | .jobj fs => fs.keys
  | .jarr xs => (List.range xs.length).map natStr
  | .jstr s => (List.range s.length).map natStr
  | _ => []

/-- Property read `data[k]` for the value shapes `loadPrices` can meet. -/
def jsIndex : Jval → String → Option Jval
  | .jobj fs, k => fs.lookup k
  | .jarr xs, k => (k.toNat?).bind (fun i => xs.get? i)
  | .jstr s, k => (k.toNat?).bind (fun i => (s.data.get? i).map (fun c => Jval.jstr (String.mk [c])))
  | _, _ => none

/-- The assignment `data[currentCode] = price`.  On a primitive receiver
the assignment is silently discarded (non-strict code); index assignment
on an array object is not modelled (unreachable under every claim). -/
def jsSetIndex : Jval → String → Jval → Jval
  | .jobj fs, k, v => .jobj (fs.setKey k v)
  | other, _, _ => other

/-! ### The price ledger (`app.js`) -/

/-- One rendered `<li>`: the code span and the `$`-less formatted price
text (`data[code].toFixed(2)`); reading `toFixed` off a non-number throws
`TypeError`. -/
def renderEntry (data : Jval) (k : String) : Except JsErr (String × String) :=
  match jsIndex data k with
  | some (.jnum x) => .ok (k, toFixed2 x)
  | _ => .error .typeError

/-- The `forEach` body over `Object.keys`: render entries until the first
thrown exception, which propagates. -/
def renderAll (data : Jval) : List String → Except JsErr (List (String × String))
  | [] => .ok []
  | k :: ks =>
    match renderEntry data k with
    | .error e => .error e
    | .ok p =>
      match renderAll data ks with
      | .error e => .error e
      | .ok ps => .ok (p :: ps)

/-- `loadPrices()`: `JSON.parse(localStorage.getItem('prices') || '{}')`,
then render one entry per `Object.keys` element.  There is no `try`/`catch`
in the source, so a parse failure is a propagated exception, modelled as
`Except.error`.  (On an error thrown mid-render the real DOM keeps the
partial list; the model leaves the previous display, which no claim
observes.) -/
def loadPricesResult (stored : Option String) : Except JsErr (List (String × String)) :=
  match jsonParse (jsOr stored "\x7b\x7d") with
  | none => .error .syntaxError
  | some data => renderAll data (jsKeys data)

/-- Page state touched by the embedded handlers: the module-level
`currentCode` variable, the `prices` entry of `localStorage`, the DOM
pieces the script reads or writes, the Quagga subscription state, and two
observability logs (values passed to `localStorage.setItem` and to
`alert`). -/
structure AppState where
  currentCode : Option String
  stored : Option String
  priceInputValue : String
  scannedCodeText : String
  priceEntryHidden : Bool
  scannerHtml : String
  displayed : List (String × String)
  scannerRunning : Bool
  detectSubscribed : Bool
  writes : List String
  alerts : List String

deriving DecidableEq

/-- The `savePriceBtn` click handler: parse the price input, silently
return unless `currentCode` is truthy and the parse is not NaN, then
read-modify-write the whole mapping, re-render via `loadPrices()`, hide
the entry form and clear `currentCode` (in source order). -/
def savePriceClick (st : AppState) : Except JsErr AppState :=
  if jsFalsyOpt st.currentCode || (parseFloat st.priceInputValue).isNaN then .ok st
  else
    match jsonParse (jsOr st.stored "\x7b\x7d") with
    | none => .error .syntaxError
    | some data =>
      match loadPricesResult (some (stringify (jsSetIndex data (st.currentCode.getD "")
          (Jval.jnum (parseFloat st.priceInputValue))))) with
      | .error e => .error e
      | .ok disp =>
        .ok { st with
          stored := some (stringify (jsSetIndex data (st.currentCode.getD "")
            (Jval.jnum (parseFloat st.priceInputValue)))),
          writes := st.writes ++ [stringify (jsSetIndex data (st.currentCode.getD "")
            (Jval.jnum (parseFloat st.priceInputValue)))],
          displayed := disp, priceEntryHidden := true, currentCode := none }

/-- Quagga detection result shape: each of `result`, `result.codeResult`
and `result.codeResult.code` may be absent. -/
structure CodeResult where
  code : Option String

structure DetResult where
  codeResult : Option CodeResult

/-- The guard chain `result && result.codeResult && result.codeResult.code`. -/
def detCode (r : Option DetResult) : Option String :=
  match r with
  | none => none
  | some dr =>
    match dr.codeResult with
    | none => none
    | some cr => cr.code

/-- `onDetected`: return untouched on a falsy code, otherwise unsubscribe,
stop the scanner, record the code, clear the scanner surface, fill the
form and show it. -/
def onDetected (st : AppState) (r : Option DetResult) : AppState :=
  if jsFalsyOpt (detCode r) then st
  else
    { st with
      detectSubscribed := false, scannerRunning := false,
      currentCode := detCode r, scannerHtml := "",
      scannedCodeText := (detCode r).getD "", priceInputValue := "",
      priceEntryHidden := false }

/-- A sequence of scan-then-save cycles: each operation installs the
scanned code and the typed price input, then runs the save click
handler. -/
def runSaves : AppState → List (String × String) → Except JsErr AppState
  | st, [] => .ok st
  | st, (c, s) :: ops =>
    match savePriceClick { st with currentCode := some c, priceInputValue := s } with
    | .error e => .error e
    | .ok st' => runSaves st' ops

/-! ### The service worker

Caches are keyed by name; each cache maps a request (identified by its
URL, the platform's default match key) to a response.  Response payloads
are an arbitrary type `ρ`.  The network is `net : String → Option ρ`
(`none` = failed fetch). -/

def CACHE_NAME : String := "price-scanner-cache-v1"

def URLS_TO_CACHE : List String :=
  ["/", "/index.html", "/styles.css", "/app.js", "/manifest.json",
   "/logo-192.png", "/logo-512.png"]

abbrev Cache (ρ : Type) : Type := List (String × ρ)

abbrev CacheStorage (ρ : Type) : Type := List (String × Cache ρ)

/-- First value stored under a key in an association list. -/
def alook {α : Type} : List (String × α) → String → Option α
  | [], _ => none
  | (k, v) :: tl, c => if c = k then some v else alook tl c

/-- Overwrite-in-place-or-append, the `Cache.put` behaviour. -/
def setEntry {α : Type} : List (String × α) → String → α → List (String × α)
  | [], c, v => [(c, v)]
  | (k, w) :: tl, c, v => if c = k then (k, v) :: tl else (k, w) :: setEntry tl c v

/-- `caches.keys()`. -/
def cacheNames {ρ : Type} (st : CacheStorage ρ) : List String := st.map Prod.fst

/-- `caches.delete(n)`. -/
def cachesDelete {ρ : Type} (n : String) (st : CacheStorage ρ) : CacheStorage ρ :=
  st.filter (fun e => e.1 != n)

/-- `caches.open(n)`: open, creating an empty cache store if absent. -/
def cachesOpen {ρ : Type} (n : String) (st : CacheStorage ρ) : CacheStorage ρ :=
  match alook st n with
  | some _ => st
  | none => st ++ [(n, [])]

/-- Fetch every listed URL; any failure fails the whole batch
(`cache.addAll` is atomic). -/
def fetchAll {ρ : Type} (net : String → Option ρ) : List String → Option (List (String × ρ))
  | [] => some []
  | u :: us =>
    match net u with
    | none => none
    | some r => (fetchAll net us).map (fun es => (u, r) :: es)

def putAll {ρ : Type} (c : Cache ρ) (es : List (String × ρ)) : Cache ρ :=
  es.foldl (fun acc e => setEntry acc e.1 e.2) c

def updateCache {ρ : Type} (n : String) (f : Cache ρ → Cache ρ) (st : CacheStorage ρ) :
    CacheStorage ρ :=
  st.map (fun e => if e.1 = n then (e.1, f e.2) else e)

/-- The install listener: `caches.open(CACHE_NAME).then(c => c.addAll(URLS_TO_CACHE))`;
`none` models a rejected `event.waitUntil` promise, in which case the new
worker does not become ready. -/
def installRun {ρ : Type} (net : String → Option ρ) (st : CacheStorage ρ) :
    Option (CacheStorage ρ) :=
  match fetchAll net URLS_TO_CACHE with
  | none => none
  | some es => some (updateCache CACHE_NAME (fun c => putAll c es) (cachesOpen CACHE_NAME st))

/-- The activate listener: enumerate `caches.keys()` and delete every name
different from `CACHE_NAME` (the `Promise.all` of independent deletes is
run as a fold; deletions of distinct names commute). -/
def activateRun {ρ : Type} (st : CacheStorage ρ) : CacheStorage ρ :=
  (cacheNames st).foldl (fun acc n => if n ≠ CACHE_NAME then cachesDelete n acc else acc) st

/-- `caches.match(req)`: first hit across resident caches in order. -/
def cachesMatchAll {ρ : Type} (st : CacheStorage ρ) (req : String) : Option ρ :=
  match st with
  | [] => none
  | (_, c) :: tl =>
    match alook c req with
    | some r => some r
    | none => cachesMatchAll tl req

/-- The fetch listener: `caches.match(event.request).then(r => r || fetch(event.request))`.
Returns the response handed to `respondWith` (`none` = network error) and
the cache state afterwards. -/
def handleFetch {ρ : Type} (st : CacheStorage ρ) (net : String → Option ρ) (req : String) :
    Option ρ × CacheStorage ρ :=
  match cachesMatchAll st req with
  | some r => (some r, st)
  | none => (net req, st)

/-- `fs.app gs`: concatenation of field lists. -/
def Jobj.app : Jobj → Jobj → Jobj
  | .nil, gs => gs
  | .cons k v tl, gs => .cons k v (tl.app gs)

/-- Number of fields. -/
def Jobj.size : Jobj → Nat
  | .nil => 0
  | .cons _ _ tl => tl.size + 1

/-! ### The ledger shape

Keys whose characters survive `JSON.stringify` unescaped, and values that
are finite numbers with exact decimal expansions — the shape of every
mapping the save handler produces and the shape the claims quantify
over. -/

def SafeKeyCh (c : Char) : Prop := c ≠ '"' ∧ c ≠ '\\' ∧ 32 ≤ c.toNat

instance (c : Char) : Decidable (SafeKeyCh c) := inferInstanceAs (Decidable (_ ∧ _ ∧ _))

def SafeKey (s : String) : Prop := ∀ c ∈ s.data, SafeKeyCh c

instance (s : String) : Decidable (SafeKey s) := inferInstanceAs (Decidable (∀ c ∈ _, _))

/-- A finite number with an exact decimal expansion. -/
def IsDecNum : Jval → Prop
  | .jnum (.fin q) => DecDen q
  | _ => False

instance : (v : Jval) → Decidable (IsDecNum v)
  | .jnull => isFalse id
  | .jbool _ => isFalse id
  | .jnum (.fin q) => inferInstanceAs (Decidable (DecDen q))
  | .jnum .inf => isFalse id
  | .jnum .negInf => isFalse id
  | .jnum .nan => isFalse id
  | .jstr _ => isFalse id
  | .jarr _ => isFalse id
  | .jobj _ => isFalse id

def LedgerObj : Jobj → Prop
  | .nil => True
  | .cons k v tl => SafeKey k ∧ IsDecNum v ∧ LedgerObj tl

def ledgerObjDec : (m : Jobj) → Decidable (LedgerObj m)
  | .nil => isTrue trivial
  | .cons _ _ tl =>
    haveI : Decidable (LedgerObj tl) := ledgerObjDec tl
    inferInstanceAs (Decidable (_ ∧ _ ∧ _))

instance (m : Jobj) : Decidable (LedgerObj m) := ledgerObjDec m

/-! ### Round trip: objects -/

/-- The member list of a printed nonempty object, without the braces. -/
def printMembers : Jobj → List Char
  | .nil => []
  | .cons k v tl => printStr k ++ ':' :: printVal v ++ printFieldsTail tl

/-! ### The rendered ledger display -/

/-- What one stored value renders as. -/
def renderVal : Jval → String
  | .jnum x => toFixed2 x
  | _ => ""

/-- The display produced by `loadPrices` from a ledger-shaped mapping. -/
def renderLedger : Jobj → List (String × String)
  | .nil => []
  | .cons k v tl => (k, renderVal v) :: renderLedger tl

/-! ### Sequences of saves -/

/-- The mapping obtained by replaying a list of `(code, priceInput)`
operations over `m` with the handler's own update (`setKey` with the
parsed price). -/
def opsApply (m : Jobj) : List (String × String) → Jobj
  | [] => m
  | (c, s) :: ops => opsApply (m.setKey c (.jnum (parseFloat s))) ops

/-- The price input of the last operation in `ops` for code `c`. -/
def lastSave : List (String × String) → String → Option String
  | [], _ => none
  | (c0, s0) :: ops, c =>
    match lastSave ops c with
    | some s => some s
    | none => if c = c0 then some s0 else none

theorem digitChar_toNat {d : Nat} (h : d < 10) : (digitChar d).toNat = 48 + d := by
  interval_cases d <;> decide

theorem digitVal_digitChar {d : Nat} (h : d < 10) : digitVal (digitChar d) = d := by
  simp [digitVal, digitChar_toNat h]

theorem isDigit_digitChar {d : Nat} (h : d < 10) : (digitChar d).isDigit = true := by
  interval_cases d <;> decide

theorem digitsVal_foldl (l : List Char) (a : Nat) :
    l.foldl (fun a c => 10 * a + digitVal c) a = a * 10 ^ l.length + digitsVal l := by
  induction l generalizing a with
  | nil => simp [digitsVal]
  | cons c tl ih =>
    simp only [List.foldl_cons, List.length_cons, digitsVal]
    rw [ih (10 * a + digitVal c), ih (10 * 0 + digitVal c)]
    ring

theorem digitsVal_append (xs ys : List Char) :
    digitsVal (xs ++ ys) = digitsVal xs * 10 ^ ys.length + digitsVal ys := by
  simp only [digitsVal, List.foldl_append]
  rw [digitsVal_foldl ys (List.foldl (fun a c => 10 * a + digitVal c) 0 xs)]
  rfl

theorem natDigitsAux_ne_nil {fuel n : Nat} (h : n < fuel) : natDigitsAux fuel n ≠ [] := by
  cases fuel with
  | zero => omega
  | succ f =>
    rw [natDigitsAux]
    split
    · simp
    · simp

theorem digitsVal_natDigitsAux {fuel n : Nat} (h : n < fuel) :
    digitsVal (natDigitsAux fuel n) = n := by
  induction fuel generalizing n with
  | zero => omega
  | succ f ih =>
    rw [natDigitsAux]
    split
    · next hlt =>
      simp [digitsVal, digitVal_digitChar hlt]
    · next hge =>
      push_neg at hge
      have hdiv : n / 10 < f := by omega
      rw [digitsVal_append, ih hdiv]
      have h10 : n % 10 < 10 := Nat.mod_lt _ (by omega)
      simp [digitsVal, digitVal_digitChar h10]
      omega

theorem digitsVal_natDigits (n : Nat) : digitsVal (natDigits n) = n :=
  digitsVal_natDigitsAux (Nat.lt_succ_self n)

theorem isDigit_natDigitsAux {fuel n : Nat} (h : n < fuel) :
    ∀ c ∈ natDigitsAux fuel n, c.isDigit = true := by
  induction fuel generalizing n with
  | zero => omega
  | succ f ih =>
    rw [natDigitsAux]
    split
    · next hlt =>
      intro c hc
      simp only [List.mem_singleton] at hc
      subst hc
      exact isDigit_digitChar hlt
    · next hge =>
      push_neg at hge
      intro c hc
      rcases List.mem_append.1 hc with h1 | h2
      · exact ih (by omega) c h1
      · simp only [List.mem_singleton] at h2
        subst h2
        exact isDigit_digitChar (Nat.mod_lt _ (by omega))

theorem isDigit_natDigits (n : Nat) : ∀ c ∈ natDigits n, c.isDigit = true :=
  isDigit_natDigitsAux (Nat.lt_succ_self n)

theorem head_natDigitsAux_ne_zero {fuel n : Nat} (hn : 0 < n) (h : n < fuel) :
    ∀ c, (natDigitsAux fuel n).head? = some c → c ≠ '0' := by
  induction fuel generalizing n with
  | zero => omega
  | succ f ih =>
    rw [natDigitsAux]
    split
    · next hlt =>
      intro c hc
      simp only [List.head?_cons, Option.some.injEq] at hc
      subst hc
      intro hcontra
      have := digitChar_toNat hlt
      rw [hcontra] at this
      simp at this
      omega
    · next hge =>
      push_neg at hge
      intro c hc
      have hdivpos : 0 < n / 10 := by omega
      have hdivlt : n / 10 < f := by omega
      rw [List.head?_append_of_ne_nil _ (natDigitsAux_ne_nil hdivlt)] at hc
      exact ih hdivpos hdivlt c hc

theorem head_natDigits_ne_zero {n : Nat} (hn : 0 < n) :
    ∀ c, (natDigits n).head? = some c → c ≠ '0' :=
  head_natDigitsAux_ne_zero hn (Nat.lt_succ_self n)

theorem readDigits_eq {ds rest : List Char} (h1 : ∀ c ∈ ds, c.isDigit = true)
    (h2 : ∀ c, rest.head? = some c → c.isDigit = false) :
    readDigits (ds ++ rest) = (ds, rest) := by
  unfold readDigits
  induction ds with
  | nil =>
    cases rest with
    | nil => rfl
    | cons c tl => simp [List.takeWhile_cons, List.dropWhile_cons, h2 c rfl]
  | cons c tl ih =>
    have hc : c.isDigit = true := h1 c (List.mem_cons_self c tl)
    have ih' := ih (fun x hx => h1 x (List.mem_cons_of_mem c hx))
    simp only [List.cons_append, List.takeWhile_cons, List.dropWhile_cons, hc, if_true,
      Prod.mk.injEq] at ih' ⊢
    exact ⟨congrArg (c :: ·) ih'.1, ih'.2⟩

theorem dvd_ten_pow_self {d k : Nat} (h : d ∣ 10 ^ k) : d ∣ 10 ^ d := by
  induction d using Nat.strong_induction_on with
  | _ d ih =>
    rcases eq_or_ne d 1 with rfl | hne1
    · exact one_dvd _
    have hd0 : d ≠ 0 := by
      rintro rfl
      exact absurd (Nat.eq_zero_of_zero_dvd h) (by positivity)
    obtain ⟨p, hp, hpd⟩ := Nat.exists_prime_and_dvd hne1
    obtain ⟨d', rfl⟩ := hpd
    have hd'0 : d' ≠ 0 := by rintro rfl; simp at hd0
    have hd'lt : d' < p * d' := by
      have := hp.two_le
      calc d' = 1 * d' := (one_mul d').symm
      _ < p * d' := by
        apply Nat.mul_lt_mul_of_lt_of_le (by omega) (le_refl d')
        omega
    have hd'dvd : d' ∣ 10 ^ k := dvd_trans (Dvd.intro_left p rfl) h
    have ihd' : d' ∣ 10 ^ d' := ih d' hd'lt hd'dvd
    have hp10 : p ∣ 10 := hp.dvd_of_dvd_pow (dvd_trans (Dvd.intro d' rfl) h)
    have : p * d' ∣ 10 * 10 ^ d' := mul_dvd_mul hp10 ihd'
    have hle : d' + 1 ≤ p * d' := by
      have := hp.two_le
      have : 2 * d' ≤ p * d' := Nat.mul_le_mul_right d' this
      omega
    calc p * d' ∣ 10 ^ (d' + 1) := by rw [pow_succ, mul_comm (10 ^ d') 10]; exact this
    _ ∣ 10 ^ (p * d') := pow_dvd_pow 10 hle

theorem den_mkRat_pow_ten_dvd (n : ℤ) (k : Nat) : (mkRat n (10 ^ k)).den ∣ 10 ^ k := by
  rw [Rat.mkRat_eq_divInt]
  have h := Rat.den_dvd n ((10 ^ k : ℕ) : ℤ)
  exact_mod_cast h

theorem decDen_of_den_dvd {q : ℚ} {k : Nat} (h : q.den ∣ 10 ^ k) : DecDen q :=
  dvd_ten_pow_self h

theorem decDen_decValue (neg : Bool) (ip fp : List Char) (e : Int) :
    DecDen (decValue neg ip fp e) := by
  rw [decValue]
  split
  · refine @decDen_of_den_dvd _ 0 ?_
    rw [pow_zero, Nat.dvd_one, Rat.mkRat_one, Rat.den_intCast]
  · exact decDen_of_den_dvd (den_mkRat_pow_ten_dvd _ _)

theorem decDen_parseFloatAfterSign {neg : Bool} {l : List Char} {q : ℚ}
    (h : parseFloatAfterSign neg l = JsNum.fin q) : DecDen q := by
  rw [parseFloatAfterSign] at h
  split at h
  · split at h <;> simp_all
  · split at h
    · split at h
      · split at h
        · simp at h
        · simp only [JsNum.fin.injEq] at h
          exact h ▸ decDen_decValue _ _ _ _
      · split at h
        · simp at h
        · simp only [JsNum.fin.injEq] at h
          exact h ▸ decDen_decValue _ _ _ _
    · split at h
      · simp at h
      · simp only [JsNum.fin.injEq] at h
        exact h ▸ decDen_decValue _ _ _ _

theorem decDen_parseFloat {s : String} {q : ℚ} (h : parseFloat s = JsNum.fin q) :
    DecDen q := by
  rw [parseFloat.eq_def] at h
  split at h
  · exact decDen_parseFloatAfterSign h
  · split at h
    · exact decDen_parseFloatAfterSign h
    · split at h <;> exact decDen_parseFloatAfterSign h

/-! ### Object lemmas -/

/-- Structural induction over `Jobj` alone (the mutual recursor's other
motives are not needed: no lemma below recurses into values). -/
@[induction_eliminator]
theorem Jobj.inductionOn {P : Jobj → Prop} (nil : P .nil)
    (cons : ∀ (k : String) (v : Jval) (tl : Jobj), P tl → P (.cons k v tl)) :
    ∀ m, P m
  | .nil => nil
  | .cons k v tl => cons k v tl (Jobj.inductionOn nil cons tl)

theorem Jobj.app_nil (m : Jobj) : m.app .nil = m := by
  induction m with
  | nil => rfl
  | cons k v tl ih => simp [Jobj.app, ih]

theorem Jobj.app_assoc (a b c : Jobj) : (a.app b).app c = a.app (b.app c) := by
  induction a with
  | nil => rfl
  | cons k v tl ih => simp [Jobj.app, ih]

theorem Jobj.keys_app (a b : Jobj) : (a.app b).keys = a.keys ++ b.keys := by
  induction a with
  | nil => rfl
  | cons k v tl ih => simp [Jobj.app, Jobj.keys, ih]

theorem Jobj.setKey_of_not_mem {m : Jobj} {c : String} (v : Jval) (h : c ∉ m.keys) :
    m.setKey c v = m.app (.cons c v .nil) := by
  induction m with
  | nil => rfl
  | cons k w tl ih =>
    simp only [Jobj.keys, List.mem_cons, not_or] at h
    simp [Jobj.setKey, Jobj.app, h.1, ih h.2]

theorem Jobj.keys_setKey (m : Jobj) (c : String) (v : Jval) :
    (m.setKey c v).keys = if c ∈ m.keys then m.keys else m.keys ++ [c] := by
  induction m with
  | nil => simp [Jobj.setKey, Jobj.keys]
  | cons k w tl ih =>
    simp only [Jobj.setKey, Jobj.keys, List.mem_cons]
    by_cases hck : c = k
    · simp [hck, Jobj.keys]
    · simp only [hck, if_false, Jobj.keys, ih]
      by_cases hmem : c ∈ tl.keys <;> simp [hmem, hck]

theorem Jobj.nodup_keys_setKey {m : Jobj} (c : String) (v : Jval) (h : m.keys.Nodup) :
    (m.setKey c v).keys.Nodup := by
  rw [Jobj.keys_setKey]
  split
  · exact h
  · next hmem => simp [List.nodup_append, h, hmem]

theorem Jobj.lookup_setKey (m : Jobj) (c c' : String) (v : Jval) :
    (m.setKey c v).lookup c' = if c' = c then some v else m.lookup c' := by
  induction m with
  | nil =>
    by_cases h : c' = c <;> simp [Jobj.setKey, Jobj.lookup, h]
  | cons k w tl ih =>
    simp only [Jobj.setKey]
    by_cases hck : c = k
    · subst hck
      simp only [Jobj.lookup, if_pos rfl]
      by_cases h : c' = c <;> simp [Jobj.lookup, h]
    · rw [if_neg hck]
      by_cases h : c' = k
      · subst h
        have : ¬ c' = c := fun hc => hck hc.symm
        simp [Jobj.lookup, this]
      · simp [Jobj.lookup, h, ih]

theorem LedgerObj.app {a b : Jobj} (ha : LedgerObj a) (hb : LedgerObj b) :
    LedgerObj (a.app b) := by
  induction a with
  | nil => exact hb
  | cons k v tl ih => exact ⟨ha.1, ha.2.1, ih ha.2.2⟩

theorem LedgerObj.setKey {m : Jobj} {c : String} {v : Jval} (hm : LedgerObj m)
    (hc : SafeKey c) (hv : IsDecNum v) : LedgerObj (m.setKey c v) := by
  induction m with
  | nil => exact ⟨hc, hv, trivial⟩
  | cons k w tl ih =>
    rw [Jobj.setKey]
    split
    · exact ⟨hm.1, hv, hm.2.2⟩
    · exact ⟨hm.1, hm.2.1, ih hm.2.2⟩

/-! ### Round trip: numbers -/

theorem natDigits_ne_nil (n : Nat) : natDigits n ≠ [] :=
  natDigitsAux_ne_nil (Nat.lt_succ_self n)

theorem decValue_int_exp (neg : Bool) (ds : List Char) (k : Nat) :
    decValue neg ds [] (-(k : Int)) =
      mkRat (if neg then -(digitsVal ds : Int) else (digitsVal ds : Int)) (10 ^ k) := by
  rw [decValue]
  have hm : ((digitsVal ds * 10 ^ List.length ([] : List Char) + digitsVal [] : Nat) : Int) =
      (digitsVal ds : Int) := by
    simp [digitsVal]
  have h0 : digitsVal ([] : List Char) = 0 := rfl
  rcases Nat.eq_zero_or_pos k with rfl | hk
  · rw [if_pos (by simp)]
    simp only [hm, List.length_nil, Nat.cast_ofNat, pow_zero, h0]
    push_cast
    split <;> norm_num
  · rw [if_neg (by simp; omega)]
    simp only [hm, List.length_nil, Nat.cast_ofNat, h0]
    push_cast
    split <;> norm_num

theorem mkRat_scaled {q : ℚ} {k : Nat} (h : q.den ∣ 10 ^ k) :
    mkRat (q.num * (((10 ^ k : Nat) / q.den : Nat) : Int)) (10 ^ k) = q := by
  obtain ⟨t, ht⟩ := h
  have hden : q.den ≠ 0 := q.den_nz
  have ht0 : t ≠ 0 := by
    rintro rfl
    rw [Nat.mul_zero] at ht
    exact absurd ht (by positivity)
  have hdivt : (10 ^ k : Nat) / q.den = t := by
    rw [ht]
    exact Nat.mul_div_cancel_left t (Nat.pos_of_ne_zero hden)
  rw [hdivt, ht, Rat.mkRat_eq_divInt]
  push_cast
  rw [Rat.divInt_mul_right (by exact_mod_cast ht0)]
  exact Rat.num_divInt_den q

theorem isDigit_ne_chars {c : Char} (h : c.isDigit = true) :
    c ≠ '-' ∧ c ≠ '"' ∧ c ≠ '\x7b' ∧ c ≠ '[' ∧ c ≠ 'n' ∧ c ≠ 't' ∧ c ≠ 'f' ∧ c ≠ '.' ∧
      c ≠ 'e' ∧ c ≠ 'E' ∧ jws c = false := by
  have hne : ∀ d : Char, d.isDigit = false → c ≠ d := by
    rintro d hd rfl
    rw [h] at hd
    exact Bool.noConfusion hd
  refine ⟨hne _ (by decide), hne _ (by decide), hne _ (by decide), hne _ (by decide),
    hne _ (by decide), hne _ (by decide), hne _ (by decide), hne _ (by decide),
    hne _ (by decide), hne _ (by decide), ?_⟩
  rw [jws]
  have h1 := hne ' ' (by decide)
  have h2 := hne '\t' (by decide)
  have h3 := hne '\n' (by decide)
  have h4 := hne '\r' (by decide)
  simp [h1, h2, h3, h4]

theorem parseJNumBody_digits (neg : Bool) (n k : Nat) (rest : List Char)
    (hrest : ∀ c, rest.head? = some c → c.isDigit = false) :
    parseJNumBody neg (natDigits n ++ 'e' :: '-' :: (natDigits k ++ rest)) =
      some (mkRat (if neg then -(n : Int) else (n : Int)) (10 ^ k), rest) := by
  have hrd : readDigits (natDigits k ++ rest) = (natDigits k, rest) :=
    readDigits_eq (isDigit_natDigits k) hrest
  have hexp : parseJNumExp neg (natDigits n) [] ('e' :: '-' :: (natDigits k ++ rest)) =
      some (decValue neg (natDigits n) [] (-(digitsVal (natDigits k) : Nat) : Int), rest) := by
    rw [parseJNumExp]
    rw [if_pos (by decide)]
    show (if (readDigits (natDigits k ++ rest)).1 = [] then none
      else some (decValue neg (natDigits n) []
        (-((digitsVal (readDigits (natDigits k ++ rest)).1 : Nat) : Int)),
        (readDigits (natDigits k ++ rest)).2)) = _
    rw [hrd]
    rw [if_neg (natDigits_ne_nil k)]
  have hip : parseIntPart (natDigits n ++ 'e' :: '-' :: (natDigits k ++ rest)) =
      some (natDigits n, 'e' :: '-' :: (natDigits k ++ rest)) := by
    rcases Nat.eq_zero_or_pos n with rfl | hn
    · have h0 : natDigits 0 = ['0'] := rfl
      rw [h0]
      show parseIntPart ('0' :: ('e' :: '-' :: (natDigits k ++ rest))) = _
      rw [parseIntPart, if_pos rfl]
    · rcases hnd : natDigits n with _ | ⟨c, cs⟩
      · exact absurd hnd (natDigits_ne_nil n)
      have hcd : c.isDigit = true := isDigit_natDigits n c (by rw [hnd]; exact List.mem_cons_self c cs)
      have hc0 : c ≠ '0' := head_natDigits_ne_zero hn c (by rw [hnd]; rfl)
      have hcs : ∀ x ∈ cs, x.isDigit = true := fun x hx =>
        isDigit_natDigits n x (by rw [hnd]; exact List.mem_cons_of_mem c hx)
      have hrd2 : readDigits (cs ++ 'e' :: '-' :: (natDigits k ++ rest)) =
          (cs, 'e' :: '-' :: (natDigits k ++ rest)) :=
        readDigits_eq hcs (fun x hx => by
          simp only [List.head?_cons, Option.some.injEq] at hx
          subst hx
          decide)
      simp only [List.cons_append, parseIntPart, hc0, if_false, hcd, if_true, hrd2]
  rw [parseJNumBody, hip]
  show parseJNumExp neg (natDigits n) [] ('e' :: '-' :: (natDigits k ++ rest)) = _
  rw [hexp, digitsVal_natDigits, decValue_int_exp]
  simp [digitsVal_natDigits]

theorem parseJNum_print {q : ℚ} (h : DecDen q) (rest : List Char)
    (hrest : ∀ c, rest.head? = some c → c.isDigit = false) :
    parseJNum (printNum (.fin q) ++ rest) = some (q, rest) := by
  rw [printNum, if_pos (show q.den ∣ 10 ^ q.den from h)]
  have hden : 0 < q.den := Nat.pos_of_ne_zero q.den_nz
  have htpos : 0 < (10 ^ q.den) / q.den := Nat.div_pos (Nat.le_of_dvd (by positivity) h) hden
  by_cases hMneg : (q.num * (((10 ^ q.den) / q.den : Nat) : Int)) < 0
  · rw [if_pos hMneg]
    have hshape : (('-' :: natDigits (q.num * (((10 ^ q.den) / q.den : Nat) : Int)).natAbs) ++
        'e' :: '-' :: natDigits q.den) ++ rest =
        '-' :: (natDigits (q.num * (((10 ^ q.den) / q.den : Nat) : Int)).natAbs ++
          'e' :: '-' :: (natDigits q.den ++ rest)) := by
      simp [List.append_assoc]
    rw [hshape, parseJNum, if_pos rfl, parseJNumBody_digits true _ _ rest hrest]
    have habs : -(((q.num * (((10 ^ q.den) / q.den : Nat) : Int)).natAbs : Nat) : Int) =
        q.num * (((10 ^ q.den) / q.den : Nat) : Int) := by
      rw [Int.ofNat_natAbs_of_nonpos (le_of_lt hMneg)]
      ring
    rw [if_pos rfl, habs, mkRat_scaled h]
  · rw [if_neg hMneg]
    push_neg at hMneg
    rcases hnd : natDigits (q.num * (((10 ^ q.den) / q.den : Nat) : Int)).natAbs with _ | ⟨c, cs⟩
    · exact absurd hnd (natDigits_ne_nil _)
    have hcd : c.isDigit = true := by
      apply isDigit_natDigits _ c
      rw [hnd]
      exact List.mem_cons_self c cs
    have hcm : c ≠ '-' := (isDigit_ne_chars hcd).1
    have hshape : ((c :: cs) ++ 'e' :: '-' :: natDigits q.den) ++ rest =
        c :: (cs ++ 'e' :: '-' :: (natDigits q.den ++ rest)) := by
      simp [List.append_assoc]
    rw [hshape, parseJNum, if_neg hcm]
    have hback : c :: (cs ++ 'e' :: '-' :: (natDigits q.den ++ rest)) =
        natDigits (q.num * (((10 ^ q.den) / q.den : Nat) : Int)).natAbs ++
          'e' :: '-' :: (natDigits q.den ++ rest) := by
      rw [hnd]
      simp
    rw [hback, parseJNumBody_digits false _ _ rest hrest]
    have habs : (((q.num * (((10 ^ q.den) / q.den : Nat) : Int)).natAbs : Nat) : Int) =
        q.num * (((10 ^ q.den) / q.den : Nat) : Int) := Int.natAbs_of_nonneg hMneg
    rw [if_neg (by simp), habs, mkRat_scaled h]

/-! ### Round trip: strings -/

theorem escChar_safe {c : Char} (h : SafeKeyCh c) : escChar c = [c] := by
  obtain ⟨h1, h2, h3⟩ := h
  rw [escChar, if_neg h1, if_neg h2]
  rw [if_neg (by rintro rfl; exact absurd h3 (by decide))]
  rw [if_neg (by rintro rfl; exact absurd h3 (by decide))]
  rw [if_neg (by rintro rfl; exact absurd h3 (by decide))]
  rw [if_neg (by rintro rfl; exact absurd h3 (by decide))]
  rw [if_neg (by rintro rfl; exact absurd h3 (by decide))]
  rw [if_neg (by omega)]

theorem flatten_escChar_safe {cs : List Char} (h : ∀ c ∈ cs, SafeKeyCh c) :
    (cs.map escChar).flatten = cs := by
  induction cs with
  | nil => rfl
  | cons c tl ih =>
    rw [List.map_cons, List.flatten_cons, escChar_safe (h c (List.mem_cons_self c tl)),
      ih (fun x hx => h x (List.mem_cons_of_mem c hx))]
    rfl

theorem parseStrBody_safe {cs : List Char} (h : ∀ c ∈ cs, SafeKeyCh c) (rest : List Char) :
    parseStrBody (cs ++ '"' :: rest) = some (cs, rest) := by
  induction cs with
  | nil =>
    rw [List.nil_append, parseStrBody.eq_def]
    simp
  | cons c tl ih =>
    obtain ⟨h1, h2, h3⟩ := h c (List.mem_cons_self c tl)
    rw [List.cons_append, parseStrBody.eq_def]
    simp only [if_neg h1, if_neg h2, if_neg (show ¬ c.toNat < 32 by omega),
      ih (fun x hx => h x (List.mem_cons_of_mem c hx))]
    rfl

theorem skipW_not_ws {c : Char} (h : jws c = false) (l : List Char) :
    skipW (c :: l) = c :: l := by
  simp [skipW, List.dropWhile_cons, h]

theorem printVal_obj_cons (k : String) (v : Jval) (tl : Jobj) :
    printVal (.jobj (.cons k v tl)) = '\x7b' :: (printMembers (.cons k v tl) ++ ['\x7d']) := by
  rw [printVal, printMembers]
  simp [List.append_assoc]

theorem printFieldsTail_cons (k : String) (v : Jval) (tl : Jobj) :
    printFieldsTail (.cons k v tl) = ',' :: printMembers (.cons k v tl) := by
  rw [printFieldsTail, printMembers]
  simp [List.append_assoc]

theorem printStr_eq_of_safe {s : String} (h : SafeKey s) :
    printStr s = '"' :: (s.data ++ ['"']) := by
  rw [printStr, flatten_escChar_safe h]
  simp

theorem string_mk_data (s : String) : String.mk s.data = s := rfl

theorem printNum_head {q : ℚ} (h : DecDen q) :
    ∃ c cs, printNum (.fin q) = c :: cs ∧ (c.isDigit = true ∨ c = '-') := by
  rw [printNum, if_pos (show q.den ∣ 10 ^ q.den from h)]
  by_cases hM : q.num * (((10 ^ q.den : Nat) / q.den : Nat) : Int) < 0
  · rw [if_pos hM]
    exact ⟨'-', _, rfl, Or.inr rfl⟩
  · rw [if_neg hM]
    rcases hnd : natDigits (q.num * (((10 ^ q.den : Nat) / q.den : Nat) : Int)).natAbs
      with _ | ⟨c, cs⟩
    · exact absurd hnd (natDigits_ne_nil _)
    refine ⟨c, cs ++ 'e' :: '-' :: natDigits q.den, by simp, Or.inl ?_⟩
    apply isDigit_natDigits _ c
    rw [hnd]
    exact List.mem_cons_self c cs

/-- `parseV` dispatches a digit or minus head to the number parser. -/
theorem parseV_num_head (fuel : Nat) (c : Char) (r : List Char)
    (hc : c.isDigit = true ∨ c = '-') :
    parseV (fuel + 1) (c :: r) =
      (parseJNum (c :: r)).map (fun p => (Jval.jnum (JsNum.fin p.1), p.2)) := by
  have hq : c ≠ '"' := by rcases hc with hd | rfl; exacts [(isDigit_ne_chars hd).2.1, by decide]
  have hb : c ≠ '\x7b' := by rcases hc with hd | rfl; exacts [(isDigit_ne_chars hd).2.2.1, by decide]
  have ha : c ≠ '[' := by
    rcases hc with hd | rfl; exacts [(isDigit_ne_chars hd).2.2.2.1, by decide]
  have hn : c ≠ 'n' := by
    rcases hc with hd | rfl; exacts [(isDigit_ne_chars hd).2.2.2.2.1, by decide]
  have ht : c ≠ 't' := by
    rcases hc with hd | rfl; exacts [(isDigit_ne_chars hd).2.2.2.2.2.1, by decide]
  have hf : c ≠ 'f' := by
    rcases hc with hd | rfl; exacts [(isDigit_ne_chars hd).2.2.2.2.2.2.1, by decide]
  rw [parseV.eq_def]
  simp only [if_neg hq, if_neg hb, if_neg ha, if_neg hn, if_neg ht, if_neg hf]

/-- A printed finite decimal is not whitespace-headed and not
digit-headed from the right: facts used to thread `skipW` and the
follower characters through the object proof. -/
theorem jws_printNum_head {q : ℚ} (h : DecDen q) :
    ∃ c cs, printNum (.fin q) = c :: cs ∧ jws c = false := by
  obtain ⟨c, cs, hpr, hc⟩ := printNum_head h
  refine ⟨c, cs, hpr, ?_⟩
  rcases hc with hd | rfl
  · exact (isDigit_ne_chars hd).2.2.2.2.2.2.2.2.2.2
  · decide

theorem isDecNum_elim {v : Jval} (hv : IsDecNum v) :
    ∃ q, v = .jnum (.fin q) ∧ DecDen q := by
  rcases v with _ | b | x | s | xs | fs
  case jnum =>
    rcases x with q | _ | _ | _
    · exact ⟨q, rfl, hv⟩
    all_goals exact hv.elim
  all_goals exact hv.elim

theorem printVal_jnum (x : JsNum) : printVal (.jnum x) = printNum x := rfl

theorem printMembers_head {k : String} (hk : SafeKey k) (v : Jval) (tl : Jobj) :
    printMembers (.cons k v tl) = '"' ::
      (k.data ++ '"' :: (':' :: (printVal v ++ (printFieldsTail tl ++ [])))) ++ [] := by
  rw [printMembers, printStr_eq_of_safe hk]
  simp [List.append_assoc]

theorem parseMembers_print (m : Jobj) : ∀ (acc : Jobj) (fuel : Nat) (rest : List Char),
    LedgerObj m → m.keys.Nodup → (∀ k ∈ m.keys, k ∉ acc.keys) → m.size + 1 ≤ fuel →
    m ≠ .nil →
    parseMembers fuel (printMembers m ++ '\x7d' :: rest) acc = some (acc.app m, rest) := by
  induction m with
  | nil => intro _ _ _ _ _ _ _ hne; exact absurd rfl hne
  | cons k v tl ih =>
    intro acc fuel rest hm hnd hdisj hsz _
    obtain ⟨f, rfl⟩ : ∃ f, fuel = f + 1 := ⟨fuel - 1, by omega⟩
    obtain ⟨hk, hv, htl⟩ := hm
    obtain ⟨q, hq, hdq⟩ := isDecNum_elim hv
    subst hq
    have hfpos : 1 ≤ f := by
      have : tl.size + 2 ≤ f + 1 := by
        simpa [Jobj.size] using hsz
      omega
    obtain ⟨f2, rfl⟩ : ∃ f2, f = f2 + 1 := ⟨f - 1, by omega⟩
    have hknotin : k ∉ acc.keys := hdisj k (by rw [Jobj.keys]; exact List.mem_cons_self _ _)
    have hshape : printMembers (.cons k (Jval.jnum (JsNum.fin q)) tl) ++ '\x7d' :: rest =
        '"' :: (k.data ++ '"' :: (':' ::
          (printNum (JsNum.fin q) ++ (printFieldsTail tl ++ '\x7d' :: rest)))) := by
      rw [printMembers, printStr_eq_of_safe hk, printVal_jnum]
      simp [List.append_assoc]
    rw [hshape, parseMembers]
    rw [if_pos rfl, parseStrBody_safe hk]
    show (match skipW (':' :: (printNum (JsNum.fin q) ++ (printFieldsTail tl ++ '\x7d' :: rest))) with
      | ':' :: r2 =>
        match parseV (f2 + 1) (skipW r2) with
        | none => none
        | some (v, r3) =>
          match skipW r3 with
          | ',' :: r4 => parseMembers (f2 + 1) (skipW r4) (acc.setKey (String.mk k.data) v)
          | '\x7d' :: r4 => some (acc.setKey (String.mk k.data) v, r4)
          | _ => none
      | _ => none) = some (acc.app (.cons k (Jval.jnum (JsNum.fin q)) tl), rest)
    rw [skipW_not_ws (by decide)]
    show (match parseV (f2 + 1)
        (skipW (printNum (JsNum.fin q) ++ (printFieldsTail tl ++ '\x7d' :: rest))) with
      | none => none
      | some (v, r3) =>
        match skipW r3 with
        | ',' :: r4 => parseMembers (f2 + 1) (skipW r4) (acc.setKey (String.mk k.data) v)
        | '\x7d' :: r4 => some (acc.setKey (String.mk k.data) v, r4)
        | _ => none) = some (acc.app (.cons k (Jval.jnum (JsNum.fin q)) tl), rest)
    obtain ⟨c0, cs0, hpr, hc0⟩ := printNum_head hdq
    have hws0 : jws c0 = false := by
      rcases hc0 with hd | rfl
      · exact (isDigit_ne_chars hd).2.2.2.2.2.2.2.2.2.2
      · decide
    have hnotdig : ∀ c, (printFieldsTail tl ++ '\x7d' :: rest).head? = some c →
        c.isDigit = false := by
      intro c hc
      rcases tl with _ | ⟨k2, v2, tl2⟩
      · rw [show printFieldsTail .nil = [] from rfl, List.nil_append, List.head?_cons,
          Option.some.injEq] at hc
        subst hc
        decide
      · rw [printFieldsTail_cons, List.cons_append, List.head?_cons, Option.some.injEq] at hc
        subst hc
        decide
    have hskip : skipW (printNum (JsNum.fin q) ++ (printFieldsTail tl ++ '\x7d' :: rest)) =
        printNum (JsNum.fin q) ++ (printFieldsTail tl ++ '\x7d' :: rest) := by
      rw [hpr, List.cons_append, skipW_not_ws hws0, ← List.cons_append, ← hpr]
    rw [hskip]
    have hparse : parseV (f2 + 1)
        (printNum (JsNum.fin q) ++ (printFieldsTail tl ++ '\x7d' :: rest)) =
        some (Jval.jnum (JsNum.fin q), printFieldsTail tl ++ '\x7d' :: rest) := by
      rw [hpr, List.cons_append, parseV_num_head _ _ _ hc0, ← List.cons_append, ← hpr,
        parseJNum_print hdq _ hnotdig]
      rfl
    rw [hparse]
    show (match skipW (printFieldsTail tl ++ '\x7d' :: rest) with
      | ',' :: r4 =>
        parseMembers (f2 + 1) (skipW r4) (acc.setKey (String.mk k.data) (Jval.jnum (JsNum.fin q)))
      | '\x7d' :: r4 => some (acc.setKey (String.mk k.data) (Jval.jnum (JsNum.fin q)), r4)
      | _ => none) = some (acc.app (.cons k (Jval.jnum (JsNum.fin q)) tl), rest)
    rw [string_mk_data]
    rcases tl with _ | ⟨k2, v2, tl2⟩
    · rw [show printFieldsTail .nil = [] from rfl, List.nil_append, skipW_not_ws (by decide)]
      show some (acc.setKey k (Jval.jnum (JsNum.fin q)), rest) = _
      rw [Jobj.setKey_of_not_mem _ hknotin]
    · rw [printFieldsTail_cons, List.cons_append, skipW_not_ws (by decide)]
      show parseMembers (f2 + 1)
        (skipW (printMembers (.cons k2 v2 tl2) ++ '\x7d' :: rest))
        (acc.setKey k (Jval.jnum (JsNum.fin q))) = _
      have hk2 : SafeKey k2 := htl.1
      have hskip2 : skipW (printMembers (.cons k2 v2 tl2) ++ '\x7d' :: rest) =
          printMembers (.cons k2 v2 tl2) ++ '\x7d' :: rest := by
        rw [printMembers_head hk2]
        simp only [List.append_nil, List.cons_append]
        rw [skipW_not_ws (by decide)]
      rw [hskip2]
      have hnd2 : (Jobj.cons k2 v2 tl2).keys.Nodup := (List.nodup_cons.mp hnd).2
      have hknot : k ∉ (Jobj.cons k2 v2 tl2).keys := (List.nodup_cons.mp hnd).1
      have hdisj2 : ∀ k' ∈ (Jobj.cons k2 v2 tl2).keys,
          k' ∉ (acc.setKey k (Jval.jnum (JsNum.fin q))).keys := by
        intro k' hk'
        rw [Jobj.keys_setKey, if_neg hknotin, List.mem_append, List.mem_singleton]
        rintro (hmem | rfl)
        · exact hdisj k' (by rw [Jobj.keys]; exact List.mem_cons_of_mem _ hk') hmem
        · exact hknot hk'
      have hsz2 : (Jobj.cons k2 v2 tl2).size + 1 ≤ f2 + 1 := by
        have : (Jobj.cons k (Jval.jnum (JsNum.fin q)) (Jobj.cons k2 v2 tl2)).size + 1 ≤ f2 + 2 :=
          hsz
        simpa [Jobj.size] using this
      rw [ih _ _ _ htl hnd2 hdisj2 hsz2 (by intro hcon; exact Jobj.noConfusion hcon)]
      rw [Jobj.setKey_of_not_mem _ hknotin, Jobj.app_assoc]
      rfl

theorem parseV_print_obj {m : Jobj} (hm : LedgerObj m) (hnd : m.keys.Nodup) {fuel : Nat}
    (hf : m.size + 2 ≤ fuel) (rest : List Char) :
    parseV fuel (printVal (.jobj m) ++ rest) = some (.jobj m, rest) := by
  obtain ⟨f, rfl⟩ : ∃ f, fuel = f + 1 := ⟨fuel - 1, by omega⟩
  rcases m with _ | ⟨k, v, tl⟩
  · show parseV (f + 1) ('\x7b' :: '\x7d' :: rest) = some (.jobj .nil, rest)
    rw [parseV]
    rw [if_neg (by decide), if_pos rfl, skipW_not_ws (by decide)]
    rfl
  · rw [printVal_obj_cons]
    have hshape : ('\x7b' :: (printMembers (.cons k v tl) ++ ['\x7d'])) ++ rest =
        '\x7b' :: (printMembers (.cons k v tl) ++ '\x7d' :: rest) := by
      simp
    rw [hshape, parseV, if_neg (by decide), if_pos rfl]
    have hk : SafeKey k := hm.1
    have hskip : skipW (printMembers (.cons k v tl) ++ '\x7d' :: rest) =
        printMembers (.cons k v tl) ++ '\x7d' :: rest := by
      rw [printMembers_head hk]
      simp only [List.append_nil, List.cons_append]
      rw [skipW_not_ws (by decide)]
    rw [hskip]
    show (match printMembers (.cons k v tl) ++ '\x7d' :: rest with
      | '\x7d' :: r2 => some (Jval.jobj .nil, r2)
      | r2 => (parseMembers f r2 .nil).map
        (fun (p : Jobj × List Char) => (Jval.jobj p.1, p.2))) = _
    have hhead : ∃ t, printMembers (.cons k v tl) ++ '\x7d' :: rest = '"' :: t := by
      rw [printMembers_head hk]
      simp only [List.append_nil, List.cons_append]
      exact ⟨_, rfl⟩
    obtain ⟨t, ht⟩ := hhead
    rw [ht]
    show (parseMembers f ('"' :: t) .nil).map
      (fun (p : Jobj × List Char) => (Jval.jobj p.1, p.2)) = _
    rw [← ht]
    have hsz : (Jobj.cons k v tl).size + 1 ≤ f := by omega
    rw [parseMembers_print _ .nil f rest hm hnd (by intro k' _ hk'; simp [Jobj.keys] at hk') hsz
      (by intro hcon; exact Jobj.noConfusion hcon)]
    rfl

theorem printFieldsTail_length (tl : Jobj) : tl.size ≤ (printFieldsTail tl).length := by
  induction tl with
  | nil => simp [Jobj.size, printFieldsTail]
  | cons k v tl ih =>
    rw [Jobj.size, printFieldsTail]
    simp only [List.length_cons, List.length_append]
    omega

theorem printVal_obj_length (m : Jobj) : m.size + 2 ≤ (printVal (.jobj m)).length + 2 := by
  rcases m with _ | ⟨k, v, tl⟩
  · simp [Jobj.size]
  · rw [printVal_obj_cons, printMembers]
    have h1 := printFieldsTail_length tl
    simp only [List.length_cons, List.length_append, Jobj.size]
    omega

theorem stringify_obj_ne_empty (m : Jobj) : stringify (.jobj m) ≠ "" := by
  rcases m with _ | ⟨k, v, tl⟩
  · intro h
    exact List.noConfusion (congrArg String.data h)
  · rw [stringify, printVal_obj_cons]
    intro h
    exact List.noConfusion (congrArg String.data h)

theorem printVal_obj_head (m : Jobj) : ∃ t, printVal (.jobj m) = '\x7b' :: t := by
  rcases m with _ | ⟨k, v, tl⟩
  · exact ⟨['\x7d'], rfl⟩
  · rw [printVal_obj_cons]
    exact ⟨_, rfl⟩

/-- `JSON.parse` inverts `JSON.stringify` on every ledger-shaped object:
the platform round trip the save handler relies on. -/
theorem jsonParse_stringify_obj {m : Jobj} (hm : LedgerObj m) (hnd : m.keys.Nodup) :
    jsonParse (stringify (.jobj m)) = some (.jobj m) := by
  rw [jsonParse]
  obtain ⟨t, ht⟩ := printVal_obj_head m
  have hdata : (stringify (.jobj m)).data = printVal (.jobj m) := rfl
  have hlen : (stringify (.jobj m)).length = (printVal (.jobj m)).length := rfl
  have hskip : skipW (stringify (.jobj m)).data = printVal (.jobj m) := by
    rw [hdata, ht, skipW_not_ws (by decide)]
  have hpv : parseV ((printVal (.jobj m)).length + 2) (printVal (.jobj m)) =
      some (.jobj m, []) := by
    have h := @parseV_print_obj m hm hnd ((printVal (.jobj m)).length + 2)
      (printVal_obj_length m) []
    simpa using h
  rw [hskip, hlen, hpv]
  rfl

theorem renderLedger_keys (m : Jobj) : (renderLedger m).map Prod.fst = m.keys := by
  induction m with
  | nil => rfl
  | cons k v tl ih => simp [renderLedger, Jobj.keys, ih]

theorem renderAll_ledger (m : Jobj) : ∀ (sub : Jobj),
    LedgerObj sub → sub.keys.Nodup →
    (∀ k, k ∈ sub.keys → m.lookup k = sub.lookup k) →
    renderAll (.jobj m) sub.keys = .ok (renderLedger sub) := by
  intro sub
  induction sub with
  | nil => intro _ _ _; rfl
  | cons k v tl ih =>
    intro hsub hnd hagree
    obtain ⟨q, hq, _⟩ := isDecNum_elim hsub.2.1
    have hlk : m.lookup k = some v := by
      rw [hagree k (by rw [Jobj.keys]; exact List.mem_cons_self _ _), Jobj.lookup, if_pos rfl]
    have hre : renderEntry (.jobj m) k = .ok (k, toFixed2 (.fin q)) := by
      rw [renderEntry, show jsIndex (.jobj m) k = m.lookup k from rfl, hlk, hq]
    have hagree2 : ∀ k', k' ∈ tl.keys → m.lookup k' = tl.lookup k' := by
      intro k' hk'
      have hne : k' ≠ k := by
        rintro rfl
        exact (List.nodup_cons.mp hnd).1 hk'
      have := hagree k' (by rw [Jobj.keys]; exact List.mem_cons_of_mem _ hk')
      rw [this, Jobj.lookup, if_neg hne]
    have hihtl := ih hsub.2.2 (List.nodup_cons.mp hnd).2 hagree2
    show renderAll (.jobj m) (k :: tl.keys) = _
    rw [renderAll, hre, hihtl]
    rw [renderLedger, hq]
    rfl

theorem jsOr_some {s : String} (h : s ≠ "") (d : String) : jsOr (some s) d = s := by
  rw [jsOr, if_neg h]

/-- `loadPrices` on a freshly stringified ledger mapping renders exactly
one entry per stored key. -/
theorem loadPrices_ledger {m : Jobj} (hm : LedgerObj m) (hnd : m.keys.Nodup) :
    loadPricesResult (some (stringify (.jobj m))) = .ok (renderLedger m) := by
  rw [loadPricesResult, jsOr_some (stringify_obj_ne_empty m), jsonParse_stringify_obj hm hnd]
  show renderAll (.jobj m) (jsKeys (.jobj m)) = _
  rw [show jsKeys (.jobj m) = m.keys from rfl]
  exact renderAll_ledger m m hm hnd (fun k _ => rfl)

/-! ### Handler-level lemmas -/

/-- The save handler's silent-rejection path: falsy scanned code or a NaN
parse leaves the whole state untouched. -/
theorem savePriceClick_noop {st : AppState}
    (h : jsFalsyOpt st.currentCode = true ∨ (parseFloat st.priceInputValue).isNaN = true) :
    savePriceClick st = .ok st := by
  rw [savePriceClick, if_pos (by rcases h with h | h <;> simp [h])]

/-- The save handler's write path, fully characterised. -/
theorem savePriceClick_writes {st : AppState} {c : String} {q : ℚ} {m : Jobj}
    (hcode : st.currentCode = some c) (hc : c ≠ "") (hkc : SafeKey c)
    (hq : parseFloat st.priceInputValue = JsNum.fin q)
    (hparse : jsonParse (jsOr st.stored "\x7b\x7d") = some (.jobj m))
    (hm : LedgerObj m) (hnd : m.keys.Nodup) :
    savePriceClick st = .ok { st with
      stored := some (stringify (.jobj (m.setKey c (.jnum (.fin q))))),
      writes := st.writes ++ [stringify (.jobj (m.setKey c (.jnum (.fin q))))],
      displayed := renderLedger (m.setKey c (.jnum (.fin q))),
      priceEntryHidden := true, currentCode := none } := by
  have hdq : DecDen q := decDen_parseFloat hq
  have hm' : LedgerObj (m.setKey c (.jnum (.fin q))) :=
    hm.setKey hkc (show DecDen q from hdq)
  have hnd' := Jobj.nodup_keys_setKey c (.jnum (.fin q)) hnd
  have hcond : (jsFalsyOpt st.currentCode || (parseFloat st.priceInputValue).isNaN) = false := by
    rw [hcode, hq]
    simp [jsFalsyOpt, JsNum.isNaN, hc]
  rw [savePriceClick, if_neg (fun hcontra => Bool.noConfusion (hcond ▸ hcontra)), hparse,
    hcode, hq]
  show (match loadPricesResult (some (stringify (jsSetIndex (.jobj m) ((some c).getD "")
      (Jval.jnum (JsNum.fin q))))) with
    | .error e => (Except.error e : Except JsErr AppState)
    | .ok disp =>
      Except.ok { st with
        stored := some (stringify (jsSetIndex (.jobj m) ((some c).getD "")
          (Jval.jnum (JsNum.fin q)))),
        writes := st.writes ++ [stringify (jsSetIndex (.jobj m) ((some c).getD "")
          (Jval.jnum (JsNum.fin q)))],
        displayed := disp, priceEntryHidden := true, currentCode := none }) = _
  rw [show jsSetIndex (.jobj m) ((some c).getD "") (Jval.jnum (JsNum.fin q)) =
    .jobj (m.setKey c (.jnum (.fin q))) from rfl]
  rw [loadPrices_ledger hm' hnd']

theorem lookup_opsApply (ops : List (String × String)) : ∀ (m : Jobj) (c : String),
    (opsApply m ops).lookup c =
      match lastSave ops c with
      | some s => some (.jnum (parseFloat s))
      | none => m.lookup c := by
  induction ops with
  | nil => intro m c; rfl
  | cons p ops ih =>
    obtain ⟨c0, s0⟩ := p
    intro m c
    rw [opsApply, ih, lastSave]
    rcases hls : lastSave ops c with _ | s
    · by_cases hcc : c = c0 <;> simp [Jobj.lookup_setKey, hcc]
    · rfl

theorem lastSave_some_mem {c : String} : ∀ {ops : List (String × String)} {s : String},
    lastSave ops c = some s → c ∈ ops.map Prod.fst := by
  intro ops
  induction ops with
  | nil => intro s h; exact absurd h (by simp [lastSave])
  | cons p ops ih =>
    obtain ⟨c0, s0⟩ := p
    intro s h
    rw [lastSave] at h
    rcases hls : lastSave ops c with _ | s'
    · rw [hls] at h
      by_cases hcc : c = c0
      · simp [hcc]
      · rw [if_neg hcc] at h
        exact absurd h (by simp)
    · simp only [List.map_cons, List.mem_cons]
      exact Or.inr (ih hls)

theorem lastSave_none_iff (c : String) : ∀ ops : List (String × String),
    lastSave ops c = none ↔ c ∉ ops.map Prod.fst := by
  intro ops
  induction ops with
  | nil => simp [lastSave]
  | cons p ops ih =>
    obtain ⟨c0, s0⟩ := p
    rw [lastSave]
    rcases hls : lastSave ops c with _ | s
    · by_cases hcc : c = c0 <;> simp [hcc, ih.mp hls]
    · have hmem := lastSave_some_mem hls
      simp [hmem]

theorem nodup_opsApply (ops : List (String × String)) : ∀ m : Jobj,
    m.keys.Nodup → (opsApply m ops).keys.Nodup := by
  induction ops with
  | nil => intro m h; exact h
  | cons p ops ih =>
    obtain ⟨c, s⟩ := p
    intro m h
    exact ih _ (Jobj.nodup_keys_setKey c _ h)

theorem ledger_opsApply (ops : List (String × String))
    (hops : ∀ p ∈ ops, SafeKey p.1 ∧ ∃ q, parseFloat p.2 = JsNum.fin q) : ∀ m : Jobj,
    LedgerObj m → LedgerObj (opsApply m ops) := by
  induction ops with
  | nil => intro m h; exact h
  | cons p ops ih =>
    obtain ⟨c, s⟩ := p
    intro m h
    obtain ⟨hk, q, hq⟩ := hops (c, s) (List.mem_cons_self _ _)
    refine ih (fun p hp => hops p (List.mem_cons_of_mem _ hp)) _ ?_
    refine h.setKey hk ?_
    rw [hq]
    exact (show DecDen q from decDen_parseFloat hq)

/-- Replaying a sequence of valid scan-then-save cycles succeeds and leaves
exactly the replayed mapping in storage. -/
theorem runSaves_ok (ops : List (String × String)) : ∀ (st : AppState) (m : Jobj),
    (∀ p ∈ ops, p.1 ≠ "" ∧ SafeKey p.1 ∧ ∃ q, parseFloat p.2 = JsNum.fin q) →
    LedgerObj m → m.keys.Nodup →
    jsonParse (jsOr st.stored "\x7b\x7d") = some (.jobj m) →
    ∃ st', runSaves st ops = .ok st' ∧
      jsonParse (jsOr st'.stored "\x7b\x7d") = some (.jobj (opsApply m ops)) := by
  induction ops with
  | nil =>
    intro st m _ _ _ hp
    exact ⟨st, rfl, hp⟩
  | cons p ops ih =>
    obtain ⟨c, s⟩ := p
    intro st m hops hm hnd hp
    obtain ⟨hc, hkc, q, hq⟩ := hops (c, s) (List.mem_cons_self _ _)
    have hw := @savePriceClick_writes
      { st with currentCode := some c, priceInputValue := s }
      c q m rfl hc hkc hq hp hm hnd
    rw [runSaves, hw]
    have hdq : DecDen q := decDen_parseFloat hq
    have hm' : LedgerObj (m.setKey c (.jnum (.fin q))) := hm.setKey hkc hdq
    have hnd' := Jobj.nodup_keys_setKey c (Jval.jnum (JsNum.fin q)) hnd
    have hp' : jsonParse (jsOr (some (stringify (.jobj (m.setKey c (.jnum (.fin q))))))
        "\x7b\x7d") = some (.jobj (m.setKey c (.jnum (.fin q)))) := by
      rw [jsOr_some (stringify_obj_ne_empty _), jsonParse_stringify_obj hm' hnd']
    obtain ⟨st', hrun, hfinal⟩ := ih { st with
        currentCode := none, priceInputValue := s,
        stored := some (stringify (.jobj (m.setKey c (.jnum (.fin q))))),
        writes := st.writes ++ [stringify (.jobj (m.setKey c (.jnum (.fin q))))],
        displayed := renderLedger (m.setKey c (.jnum (.fin q))),
        priceEntryHidden := true }
      (m.setKey c (.jnum (.fin q)))
      (fun p hp => hops p (List.mem_cons_of_mem _ hp)) hm' hnd' hp'
    refine ⟨st', hrun, ?_⟩
    rw [opsApply, hq]
    exact hfinal

/-! ### Service-worker lemmas -/

theorem mem_cachesDelete {ρ : Type} (n : String) (st : CacheStorage ρ) (p : String × Cache ρ) :
    p ∈ cachesDelete n st ↔ p ∈ st ∧ p.1 ≠ n := by
  simp [cachesDelete, List.mem_filter, bne_iff_ne]

theorem activate_fold_mem {ρ : Type} (ns : List String) : ∀ (acc : CacheStorage ρ)
    (p : String × Cache ρ),
    p ∈ ns.foldl (fun a n => if n ≠ CACHE_NAME then cachesDelete n a else a) acc ↔
      p ∈ acc ∧ (p.1 = CACHE_NAME ∨ p.1 ∉ ns) := by
  induction ns with
  | nil => simp
  | cons n0 ns ih =>
    intro acc p
    rw [List.foldl_cons]
    by_cases h0 : n0 ≠ CACHE_NAME
    · rw [if_pos h0, ih, mem_cachesDelete]
      simp only [List.mem_cons, not_or]
      constructor
      · rintro ⟨⟨hmem, hne⟩, hrest⟩
        rcases hrest with hc | hnin
        · exact ⟨hmem, Or.inl hc⟩
        · exact ⟨hmem, Or.inr ⟨hne, hnin⟩⟩
      · rintro ⟨hmem, hc | ⟨hne, hnin⟩⟩
        · exact ⟨⟨hmem, fun he => h0 (he ▸ hc ▸ rfl)⟩, Or.inl hc⟩
        · exact ⟨⟨hmem, hne⟩, Or.inr hnin⟩
    · rw [if_neg h0, ih]
      push_neg at h0
      subst h0
      simp only [List.mem_cons, not_or]
      constructor
      · rintro ⟨hmem, hc | hnin⟩
        · exact ⟨hmem, Or.inl hc⟩
        · by_cases hcn : p.1 = CACHE_NAME
          · exact ⟨hmem, Or.inl hcn⟩
          · exact ⟨hmem, Or.inr ⟨hcn, hnin⟩⟩
      · rintro ⟨hmem, hc | ⟨_, hnin⟩⟩
        · exact ⟨hmem, Or.inl hc⟩
        · exact ⟨hmem, Or.inr hnin⟩

theorem activateRun_mem {ρ : Type} (st : CacheStorage ρ) (p : String × Cache ρ) :
    p ∈ activateRun st ↔ p ∈ st ∧ p.1 = CACHE_NAME := by
  rw [activateRun, activate_fold_mem]
  constructor
  · rintro ⟨hmem, hc | hnin⟩
    · exact ⟨hmem, hc⟩
    · exact absurd (List.mem_map_of_mem Prod.fst hmem) hnin
  · rintro ⟨hmem, hc⟩
    exact ⟨hmem, Or.inl hc⟩

theorem fetchAll_none {ρ : Type} (net : String → Option ρ) :
    ∀ (urls : List String) (u : String), u ∈ urls → net u = none →
    fetchAll net urls = none := by
  intro urls
  induction urls with
  | nil => intro u hu; exact absurd hu (List.not_mem_nil u)
  | cons u0 us ih =>
    intro u hu hnet
    rcases List.mem_cons.mp hu with rfl | hmem
    · rw [fetchAll, hnet]
    · rw [fetchAll]
      rcases hn : net u0 with _ | r
      · rfl
      · rw [ih u hmem hnet]
        rfl

theorem fetchAll_some {ρ : Type} (net : String → Option ρ) :
    ∀ urls : List String, (∀ u ∈ urls, (net u).isSome) →
    ∃ es, fetchAll net urls = some es ∧ es.map Prod.fst = urls ∧
      ∀ p ∈ es, net p.1 = some p.2 := by
  intro urls
  induction urls with
  | nil => intro _; exact ⟨[], rfl, rfl, fun p hp => absurd hp (List.not_mem_nil p)⟩
  | cons u0 us ih =>
    intro hall
    have h0 := hall u0 (List.mem_cons_self _ _)
    rcases hn : net u0 with _ | r
    · rw [hn] at h0; exact absurd h0 (by simp)
    obtain ⟨es, hfa, hmap, hnet⟩ := ih (fun u hu => hall u (List.mem_cons_of_mem _ hu))
    refine ⟨(u0, r) :: es, ?_, ?_, ?_⟩
    · rw [fetchAll, hn, hfa]
      rfl
    · simp [hmap]
    · intro p hp
      rcases List.mem_cons.mp hp with rfl | hmem
      · exact hn
      · exact hnet p hmem

theorem alook_setEntry {α : Type} : ∀ (l : List (String × α)) (k k' : String) (v : α),
    alook (setEntry l k v) k' = if k' = k then some v else alook l k' := by
  intro l
  induction l with
  | nil =>
    intro k k' v
    by_cases h : k' = k <;> simp [setEntry, alook, h]
  | cons p tl ih =>
    obtain ⟨k0, v0⟩ := p
    intro k k' v
    rw [setEntry]
    by_cases hk : k = k0
    · subst hk
      by_cases h : k' = k <;> simp [alook, h]
    · rw [if_neg hk]
      by_cases h : k' = k0
      · subst h
        rw [alook, if_pos rfl, if_neg (fun hc => hk hc.symm), alook, if_pos rfl]
      · rw [alook, if_neg h, ih, alook, if_neg h]

theorem alook_putAll_notmem {α : Type} : ∀ (es : List (String × α)) (c : List (String × α))
    (u : String), u ∉ es.map Prod.fst → alook (putAll c es) u = alook c u := by
  intro es
  induction es with
  | nil => intro c u _; rfl
  | cons p es ih =>
    obtain ⟨u0, r0⟩ := p
    intro c u hu
    simp only [List.map_cons, List.mem_cons, not_or] at hu
    show alook (putAll (setEntry c u0 r0) es) u = _
    rw [ih _ _ hu.2, alook_setEntry, if_neg hu.1]

theorem alook_putAll {α : Type} : ∀ (es : List (String × α)) (c : List (String × α))
    (u : String) (r : α), (es.map Prod.fst).Nodup → (u, r) ∈ es →
    alook (putAll c es) u = some r := by
  intro es
  induction es with
  | nil => intro c u r _ hm; exact absurd hm (List.not_mem_nil _)
  | cons p es ih =>
    obtain ⟨u0, r0⟩ := p
    intro c u r hnd hm
    have hnd' : u0 ∉ es.map Prod.fst ∧ (es.map Prod.fst).Nodup := by
      rw [List.map_cons] at hnd
      exact List.nodup_cons.mp hnd
    rcases List.mem_cons.mp hm with heq | hmem
    · injection heq with h1 h2
      subst h1
      subst h2
      show alook (putAll (setEntry c u r) es) u = some r
      rw [alook_putAll_notmem es _ u hnd'.1, alook_setEntry, if_pos rfl]
    · exact ih _ u r hnd'.2 hmem

theorem alook_updateCache_self {ρ : Type} (n : String) (f : Cache ρ → Cache ρ) :
    ∀ st : CacheStorage ρ, alook (updateCache n f st) n = (alook st n).map f := by
  intro st
  induction st with
  | nil => rfl
  | cons p tl ih =>
    obtain ⟨n0, c0⟩ := p
    show alook ((if n0 = n then (n0, f c0) else (n0, c0)) :: updateCache n f tl) n =
      Option.map f (alook ((n0, c0) :: tl) n)
    by_cases h : n0 = n
    · subst h
      rw [if_pos rfl, alook, if_pos rfl, alook, if_pos rfl]
      rfl
    · rw [if_neg h, alook, if_neg (fun hc => h hc.symm), alook, if_neg (fun hc => h hc.symm)]
      exact ih

theorem alook_append_right {α : Type} : ∀ (l1 l2 : List (String × α)) (k : String),
    alook l1 k = none → alook (l1 ++ l2) k = alook l2 k := by
  intro l1
  induction l1 with
  | nil => intro l2 k _; rfl
  | cons p tl ih =>
    obtain ⟨k0, v0⟩ := p
    intro l2 k h
    rw [alook] at h
    by_cases hk : k = k0
    · rw [if_pos hk] at h; exact absurd h (by simp)
    · rw [if_neg hk] at h
      rw [List.cons_append, alook, if_neg hk]
      exact ih l2 k h

theorem alook_cachesOpen_self {ρ : Type} (n : String) (st : CacheStorage ρ) :
    ∃ c0, alook (cachesOpen n st) n = some c0 := by
  rw [cachesOpen]
  rcases h : alook st n with _ | c
  · refine ⟨[], ?_⟩
    rw [alook_append_right st _ n h, alook, if_pos rfl]
  · exact ⟨c, h⟩

/-- The install listener, fully characterised: all-or-nothing. -/
theorem installRun_spec {ρ : Type} (net : String → Option ρ) (st : CacheStorage ρ) :
    ((∃ u ∈ URLS_TO_CACHE, net u = none) → installRun net st = none) ∧
    ((∀ u ∈ URLS_TO_CACHE, (net u).isSome) → ∃ st', installRun net st = some st' ∧
      ∃ cc, alook st' CACHE_NAME = some cc ∧ ∀ u ∈ URLS_TO_CACHE, alook cc u = net u) := by
  constructor
  · rintro ⟨u, hu, hnet⟩
    rw [installRun, fetchAll_none net URLS_TO_CACHE u hu hnet]
  · intro hall
    obtain ⟨es, hfa, hmap, hnet⟩ := fetchAll_some net URLS_TO_CACHE hall
    rw [installRun, hfa]
    refine ⟨_, rfl, ?_⟩
    obtain ⟨c0, hc0⟩ := alook_cachesOpen_self CACHE_NAME st
    refine ⟨putAll c0 es, ?_, ?_⟩
    · rw [alook_updateCache_self, hc0]
      rfl
    · intro u hu
      have hund : (es.map Prod.fst).Nodup := by
        rw [hmap]
        decide
      have humem : u ∈ es.map Prod.fst := hmap ▸ hu
      obtain ⟨p, hpmem, hpu⟩ := List.mem_map.mp humem
      obtain ⟨u', r⟩ := p
      subst hpu
      rw [alook_putAll es c0 _ r hund hpmem, hnet _ hpmem]

theorem isFinite_elim {x : JsNum} (h : x.isFinite = true) : ∃ q, x = JsNum.fin q := by
  cases x with
  | fin q => exact ⟨q, rfl⟩
  | inf => exact absurd h (by decide)
  | negInf => exact absurd h (by decide)
  | nan => exact absurd h (by decide)

/-! ### The claims -/

/-- C1 counterexample: contrary to the claim, a stored value that is a
non-empty string of invalid JSON makes `loadPrices` throw — the
`SyntaxError` from `JSON.parse` propagates to the caller (there is no
`try`/`catch` in the source) instead of degrading to an empty display. -/
theorem c1_counterexample :
    loadPricesResult (some "oops") = Except.error JsErr.syntaxError := by decide

/-- C1 (amended): `load()` yields an empty display when the stored value
is absent or the empty string; when the stored value is a non-empty
string that is not valid JSON, the parse error propagates to the caller
(load throws) rather than yielding an empty display; a valid serialized
ledger mapping yields exactly one display entry per stored code. -/
theorem c1_load_corrupt_amended :
    (loadPricesResult none = .ok [] ∧ loadPricesResult (some "") = .ok []) ∧
    (∀ s : String, s ≠ "" → jsonParse s = none →
      loadPricesResult (some s) = .error .syntaxError) ∧
    (∀ m : Jobj, LedgerObj m → m.keys.Nodup →
      loadPricesResult (some (stringify (.jobj m))) = .ok (renderLedger m) ∧
      (renderLedger m).map Prod.fst = m.keys) := by
  refine ⟨⟨by decide, by decide⟩, ?_, ?_⟩
  · intro s hs hparse
    rw [loadPricesResult, jsOr_some hs, hparse]
  · intro m hm hnd
    exact ⟨loadPrices_ledger hm hnd, renderLedger_keys m⟩

/-- C1 witness: the amended claim at concrete inputs — a corrupt store
throws, a one-entry serialized mapping renders one entry. -/
theorem c1_witness :
    loadPricesResult (some "garbage") = .error .syntaxError ∧
    loadPricesResult (some (stringify (.jobj (.cons "42" (.jnum (.fin (mkRat 1 1))) .nil)))) =
      .ok [("42", "1.00")] := by
  constructor
  · exact c1_load_corrupt_amended.2.1 "garbage" (by decide) (by decide)
  · rw [(c1_load_corrupt_amended.2.2 (.cons "42" (.jnum (.fin (mkRat 1 1))) .nil)
      (by decide) (by decide)).1]
    decide

/-- C2: replaying any sequence of valid saves (truthy code, finite parsed
price) over any well-formed persisted mapping succeeds, and the mapping
loaded afterwards holds, for each code, exactly the price of the last
save for that code, holds one entry per distinct code (keys stay
`Nodup`), and leaves codes never saved at their original values. -/
theorem c2_last_write_wins (st : AppState) (m0 : Jobj) (ops : List (String × String))
    (hops : ∀ p ∈ ops, p.1 ≠ "" ∧ SafeKey p.1 ∧ (parseFloat p.2).isFinite = true)
    (hm0 : LedgerObj m0) (hnd0 : m0.keys.Nodup)
    (hstart : jsonParse (jsOr st.stored "\x7b\x7d") = some (.jobj m0)) :
    ∃ st' mf, runSaves st ops = .ok st' ∧
      jsonParse (jsOr st'.stored "\x7b\x7d") = some (.jobj mf) ∧
      mf.keys.Nodup ∧
      (∀ c s, lastSave ops c = some s → mf.lookup c = some (.jnum (parseFloat s))) ∧
      (∀ c, c ∉ ops.map Prod.fst → mf.lookup c = m0.lookup c) := by
  have hops' : ∀ p ∈ ops, p.1 ≠ "" ∧ SafeKey p.1 ∧ ∃ q, parseFloat p.2 = JsNum.fin q := by
    intro p hp
    obtain ⟨h1, h2, h3⟩ := hops p hp
    exact ⟨h1, h2, isFinite_elim h3⟩
  obtain ⟨st', hrun, hp⟩ := runSaves_ok ops st m0 hops' hm0 hnd0 hstart
  refine ⟨st', opsApply m0 ops, hrun, hp, nodup_opsApply ops m0 hnd0, ?_, ?_⟩
  · intro c s hls
    rw [lookup_opsApply, hls]
  · intro c hc
    rw [lookup_opsApply, (lastSave_none_iff c ops).mpr hc]

/-- C2 witness: the spec's own scenario — two saves for code `42`, first
`1.00` then `2.50`, starting from an empty store. -/
theorem c2_witness :
    ∃ st' mf,
      runSaves
        { currentCode := none, stored := none, priceInputValue := "",
          scannedCodeText := "", priceEntryHidden := true, scannerHtml := "",
          displayed := [], scannerRunning := false, detectSubscribed := false,
          writes := [], alerts := [] }
        [("42", "1.00"), ("42", "2.50")] = .ok st' ∧
      jsonParse (jsOr st'.stored "\x7b\x7d") = some (.jobj mf) ∧
      mf.keys.Nodup ∧
      (∀ c s, lastSave [("42", "1.00"), ("42", "2.50")] c = some s →
        mf.lookup c = some (.jnum (parseFloat s))) ∧
      (∀ c, c ∉ [("42", "1.00"), ("42", "2.50")].map Prod.fst →
        mf.lookup c = Jobj.nil.lookup c) :=
  c2_last_write_wins _ Jobj.nil [("42", "1.00"), ("42", "2.50")]
    (by decide) (by decide) (by decide) (by decide)

/-- C3 counterexample: a save with price input `-1` (and a valid scanned
code) performs a write and persists the negative price `-1`, refuting the
claimed invariant that every persisted price is finite and non-negative;
and a save with price input `Infinity` is not rejected either — the write
happens and re-rendering throws a `TypeError` (`null.toFixed`), so the
handler errors rather than silently skipping the write. -/
theorem c3_counterexample :
    (savePriceClick
        { currentCode := some "123", stored := some "\x7b\x7d", priceInputValue := "-1",
          scannedCodeText := "123", priceEntryHidden := false, scannerHtml := "",
          displayed := [], scannerRunning := false, detectSubscribed := false,
          writes := [], alerts := [] } =
      .ok {
          currentCode := none,
          stored := some (stringify (.jobj (.cons "123" (.jnum (.fin (mkRat (-1) 1))) .nil))),
          priceInputValue := "-1", scannedCodeText := "123", priceEntryHidden := true,
          scannerHtml := "", displayed := [("123", "-1.00")], scannerRunning := false,
          detectSubscribed := false,
          writes := [stringify (.jobj (.cons "123" (.jnum (.fin (mkRat (-1) 1))) .nil))],
          alerts := [] }) ∧
    (mkRat (-1) 1).num < 0 ∧
    savePriceClick
        { currentCode := some "123", stored := some "\x7b\x7d", priceInputValue := "Infinity",
          scannedCodeText := "123", priceEntryHidden := false, scannerHtml := "",
          displayed := [], scannerRunning := false, detectSubscribed := false,
          writes := [], alerts := [] } = .error .typeError := by
  refine ⟨by decide, by decide, by decide⟩

/-- C3 (amended): the save handler's only validation is `isNaN` on
`parseFloat` plus truthiness of the scanned code.  When both pass with a
finite parsed value `q`, the write happens and persists exactly `q` —
which need not be non-negative; when either fails, no write happens and
no error surfaces.  (An infinite parse is also written; see the
counterexample for the crash that follows.) -/
theorem c3_validation_amended (st : AppState) :
    (jsFalsyOpt st.currentCode = true ∨ (parseFloat st.priceInputValue).isNaN = true →
      savePriceClick st = .ok st) ∧
    (∀ c q m, st.currentCode = some c → c ≠ "" → SafeKey c →
      parseFloat st.priceInputValue = JsNum.fin q →
      jsonParse (jsOr st.stored "\x7b\x7d") = some (.jobj m) →
      LedgerObj m → m.keys.Nodup →
      savePriceClick st = .ok { st with
        stored := some (stringify (.jobj (m.setKey c (.jnum (.fin q))))),
        writes := st.writes ++ [stringify (.jobj (m.setKey c (.jnum (.fin q))))],
        displayed := renderLedger (m.setKey c (.jnum (.fin q))),
        priceEntryHidden := true, currentCode := none } ∧
      (m.setKey c (.jnum (.fin q))).lookup c = some (.jnum (.fin q))) := by
  constructor
  · exact savePriceClick_noop
  · intro c q m hcode hc hkc hq hparse hm hnd
    refine ⟨savePriceClick_writes hcode hc hkc hq hparse hm hnd, ?_⟩
    rw [Jobj.lookup_setKey, if_pos rfl]

/-- C3 witness: the amended characterisation at concrete inputs — the
no-write path on a NaN parse, and the write path persisting `-1`. -/
theorem c3_witness :
    savePriceClick
      { currentCode := some "9", stored := some "\x7b\x7d", priceInputValue := "abc",
        scannedCodeText := "9", priceEntryHidden := false, scannerHtml := "",
        displayed := [], scannerRunning := false, detectSubscribed := false,
        writes := [], alerts := [] } =
    .ok {
        currentCode := some "9", stored := some "\x7b\x7d", priceInputValue := "abc",
        scannedCodeText := "9", priceEntryHidden := false, scannerHtml := "",
        displayed := [], scannerRunning := false, detectSubscribed := false,
        writes := [], alerts := [] } ∧
    (Jobj.nil.setKey "9" (.jnum (.fin (mkRat (-1) 1)))).lookup "9" =
      some (.jnum (.fin (mkRat (-1) 1))) :=
  ⟨(c3_validation_amended _).1 (by decide),
   ((c3_validation_amended
      { currentCode := some "9", stored := some "\x7b\x7d", priceInputValue := "-1",
        scannedCodeText := "9", priceEntryHidden := false, scannerHtml := "",
        displayed := [], scannerRunning := false, detectSubscribed := false,
        writes := [], alerts := [] }).2 "9" (mkRat (-1) 1) Jobj.nil
      (by decide) (by decide) (by decide) (by decide) (by decide) (by decide) (by decide)).2⟩

/-- C4: when the price input does not parse as a number, or there is no
currently scanned code (the session state is `null` or empty), the click
handler returns the state entirely unchanged: same persisted mapping,
no `setItem` write logged, no alert surfaced. -/
theorem c4_invalid_input_noop (st : AppState)
    (h : st.currentCode = none ∨ st.currentCode = some "" ∨
      (parseFloat st.priceInputValue).isNaN = true) :
    savePriceClick st = .ok st := by
  apply savePriceClick_noop
  rcases h with h | h | h
  · exact Or.inl (by rw [h]; rfl)
  · exact Or.inl (by rw [h]; rfl)
  · exact Or.inr h

/-- C4 witness: the no-op at concrete states — non-numeric price with a
scanned code, and a numeric price with no scanned code. -/
theorem c4_witness :
    savePriceClick
      { currentCode := some "77", stored := some "\x7b\x7d", priceInputValue := "x1",
        scannedCodeText := "77", priceEntryHidden := false, scannerHtml := "",
        displayed := [], scannerRunning := false, detectSubscribed := false,
        writes := [], alerts := [] } =
    .ok {
        currentCode := some "77", stored := some "\x7b\x7d", priceInputValue := "x1",
        scannedCodeText := "77", priceEntryHidden := false, scannerHtml := "",
        displayed := [], scannerRunning := false, detectSubscribed := false,
        writes := [], alerts := [] } ∧
    savePriceClick
      { currentCode := none, stored := some "\x7b\x7d", priceInputValue := "2.00",
        scannedCodeText := "", priceEntryHidden := true, scannerHtml := "",
        displayed := [], scannerRunning := false, detectSubscribed := false,
        writes := [], alerts := [] } =
    .ok {
        currentCode := none, stored := some "\x7b\x7d", priceInputValue := "2.00",
        scannedCodeText := "", priceEntryHidden := true, scannerHtml := "",
        displayed := [], scannerRunning := false, detectSubscribed := false,
        writes := [], alerts := [] } :=
  ⟨c4_invalid_input_noop _ (Or.inr (Or.inr (by decide))),
   c4_invalid_input_noop _ (Or.inl rfl)⟩

/-- C5: after the activate phase a cache store is resident exactly when
its name equals the current generation identifier `CACHE_NAME`: every
store with a different name has been deleted, only current-generation
stores remain, and the decision quantifies over arbitrary contents —
deletion is by name equality alone, never by content. -/
theorem c5_activate_prunes {ρ : Type} (st : CacheStorage ρ) :
    (∀ p : String × Cache ρ, p ∈ activateRun st ↔ p ∈ st ∧ p.1 = CACHE_NAME) ∧
    (∀ p : String × Cache ρ, p ∈ st → p.1 ≠ CACHE_NAME → p ∉ activateRun st) ∧
    (∀ p : String × Cache ρ, p ∈ activateRun st → p.1 = CACHE_NAME) := by
  refine ⟨activateRun_mem st, ?_, ?_⟩
  · intro p hmem hne hcon
    exact hne ((activateRun_mem st p).mp hcon).2
  · intro p hmem
    exact ((activateRun_mem st p).mp hmem).2

/-- C5 witness: with one prior-generation store and one current-generation
store resident, activation keeps the current store and drops the old
one. -/
theorem c5_witness :
    ("price-scanner-cache-v1", [("/", 1)]) ∈
      activateRun [("price-scanner-cache-v1", [("/", (1 : Nat))]),
        ("price-scanner-cache-v0", [("/", 2)])] ∧
    ("price-scanner-cache-v0", [("/", 2)]) ∉
      activateRun [("price-scanner-cache-v1", [("/", (1 : Nat))]),
        ("price-scanner-cache-v0", [("/", 2)])] :=
  ⟨((c5_activate_prunes _).1 _).mpr (by decide),
   (c5_activate_prunes _).2.1 _ (by decide) (by decide)⟩

/-- C6: the install phase is all-or-nothing over the fixed manifest: if
any single manifest fetch fails the phase fails (the waited promise
rejects, so the new generation does not become ready); if every fetch
succeeds, every manifest path is retrievable from the cache store named
`CACHE_NAME` with exactly the fetched response. -/
theorem c6_install_all_or_nothing {ρ : Type} (net : String → Option ρ) (st : CacheStorage ρ) :
    ((∃ u ∈ URLS_TO_CACHE, net u = none) → installRun net st = none) ∧
    ((∀ u ∈ URLS_TO_CACHE, (net u).isSome) → ∃ st', installRun net st = some st' ∧
      ∃ cc, alook st' CACHE_NAME = some cc ∧ ∀ u ∈ URLS_TO_CACHE, alook cc u = net u) :=
  installRun_spec net st

/-- C6 witness: a network that fails every fetch fails the install; a
network that answers every fetch installs all seven manifest paths. -/
theorem c6_witness :
    installRun (fun _ => (none : Option Nat)) ([] : CacheStorage Nat) = none ∧
    (∃ st', installRun (fun u => (some u.length : Option Nat)) ([] : CacheStorage Nat) =
        some st' ∧
      ∃ cc, alook st' CACHE_NAME = some cc ∧
        ∀ u ∈ URLS_TO_CACHE, alook cc u = (fun u => (some u.length : Option Nat)) u) :=
  ⟨(c6_install_all_or_nothing (fun _ => (none : Option Nat)) []).1 ⟨"/", by decide, rfl⟩,
   (c6_install_all_or_nothing (fun u => (some u.length : Option Nat)) []).2
     (fun u _ => rfl)⟩

/-- C7: the fetch handler returns the cached response whenever any
resident cache holds an exact match for the request, otherwise the live
network result unmodified; in both cases the cache state after handling
is exactly the state before — no cache is populated on a miss. -/
theorem c7_fetch_no_populate {ρ : Type} (st : CacheStorage ρ) (net : String → Option ρ)
    (req : String) :
    (∀ r, cachesMatchAll st req = some r → handleFetch st net req = (some r, st)) ∧
    (cachesMatchAll st req = none → handleFetch st net req = (net req, st)) ∧
    (handleFetch st net req).2 = st := by
  refine ⟨?_, ?_, ?_⟩
  · intro r h
    rw [handleFetch.eq_def, h]
  · intro h
    rw [handleFetch.eq_def, h]
  · rcases h : cachesMatchAll st req with _ | r <;> rw [handleFetch.eq_def, h]

/-- C7 witness: a hit is served from the cache, a miss from the network,
and the cache state is unchanged in both runs. -/
theorem c7_witness :
    handleFetch [("c1", [("/a", (5 : Nat))])] (fun _ => some 9) "/a" =
      (some 5, [("c1", [("/a", 5)])]) ∧
    handleFetch [("c1", [("/a", (5 : Nat))])] (fun _ => some 9) "/b" =
      (some 9, [("c1", [("/a", 5)])]) :=
  ⟨(c7_fetch_no_populate [("c1", [("/a", 5)])] (fun _ => some 9) "/a").1 5 (by decide),
   (c7_fetch_no_populate [("c1", [("/a", 5)])] (fun _ => some 9) "/b").2.1 (by decide)⟩

/-- C8: every successful save (truthy code, finite parsed price, readable
store) ends with the transient scanned-code state cleared, the entry form
hidden, the post-save mapping persisted, and the displayed list equal to
what re-running `loadPrices()` on the post-save store yields. -/
theorem c8_post_save_state (st : AppState) (c : String) (q : ℚ) (m : Jobj)
    (hcode : st.currentCode = some c) (hc : c ≠ "") (hkc : SafeKey c)
    (hq : parseFloat st.priceInputValue = JsNum.fin q)
    (hparse : jsonParse (jsOr st.stored "\x7b\x7d") = some (.jobj m))
    (hm : LedgerObj m) (hnd : m.keys.Nodup) :
    ∃ st', savePriceClick st = .ok st' ∧
      st'.currentCode = none ∧
      st'.priceEntryHidden = true ∧
      st'.stored = some (stringify (.jobj (m.setKey c (.jnum (.fin q))))) ∧
      loadPricesResult st'.stored = .ok st'.displayed := by
  refine ⟨_, savePriceClick_writes hcode hc hkc hq hparse hm hnd, rfl, rfl, rfl, ?_⟩
  show loadPricesResult (some (stringify (.jobj (m.setKey c (.jnum (.fin q)))))) =
    .ok (renderLedger (m.setKey c (.jnum (.fin q))))
  exact loadPrices_ledger (hm.setKey hkc (decDen_parseFloat hq))
    (Jobj.nodup_keys_setKey _ _ hnd)

/-- C8 witness: the spec's end-to-end scenario — code `012345678905`,
price input `3.99`, empty starting store. -/
theorem c8_witness :
    ∃ st', savePriceClick
      { currentCode := some "012345678905", stored := none, priceInputValue := "3.99",
        scannedCodeText := "012345678905", priceEntryHidden := false, scannerHtml := "",
        displayed := [], scannerRunning := false, detectSubscribed := false,
        writes := [], alerts := [] } = .ok st' ∧
      st'.currentCode = none ∧
      st'.priceEntryHidden = true ∧
      st'.stored = some (stringify (.jobj (Jobj.nil.setKey "012345678905"
        (.jnum (.fin (mkRat 399 100)))))) ∧
      loadPricesResult st'.stored = .ok st'.displayed :=
  c8_post_save_state _ "012345678905" (mkRat 399 100) Jobj.nil rfl (by decide) (by decide)
    (by decide) (by decide) (by decide) (by decide)

/-- C9: a detection event whose result has no decoded code — the result,
its `codeResult`, or the `code` field absent, or the code the empty
(falsy) string — leaves every part of the state unchanged: the scanner
keeps running, the detection subscription stays installed, the transient
scanned-code state is untouched and the price-entry form keeps its
visibility. -/
theorem c9_no_code_noop (st : AppState) (r : Option DetResult)
    (h : jsFalsyOpt (detCode r) = true) :
    onDetected st r = st ∧
    (onDetected st r).scannerRunning = st.scannerRunning ∧
    (onDetected st r).detectSubscribed = st.detectSubscribed ∧
    (onDetected st r).currentCode = st.currentCode ∧
    (onDetected st r).priceEntryHidden = st.priceEntryHidden := by
  have heq : onDetected st r = st := by rw [onDetected, if_pos h]
  exact ⟨heq, by rw [heq], by rw [heq], by rw [heq], by rw [heq]⟩

/-- C9 witness: the three codeless result shapes (`null` result, missing
`codeResult`, empty-string code) on a state with the scanner running and
subscribed. -/
theorem c9_witness :
    onDetected
      { currentCode := none, stored := none, priceInputValue := "",
        scannedCodeText := "", priceEntryHidden := true, scannerHtml := "live",
        displayed := [], scannerRunning := true, detectSubscribed := true,
        writes := [], alerts := [] } none =
      { currentCode := none, stored := none, priceInputValue := "",
        scannedCodeText := "", priceEntryHidden := true, scannerHtml := "live",
        displayed := [], scannerRunning := true, detectSubscribed := true,
        writes := [], alerts := [] } ∧
    onDetected
      { currentCode := none, stored := none, priceInputValue := "",
        scannedCodeText := "", priceEntryHidden := true, scannerHtml := "live",
        displayed := [], scannerRunning := true, detectSubscribed := true,
        writes := [], alerts := [] } (some { codeResult := none }) =
      { currentCode := none, stored := none, priceInputValue := "",
        scannedCodeText := "", priceEntryHidden := true, scannerHtml := "live",
        displayed := [], scannerRunning := true, detectSubscribed := true,
        writes := [], alerts := [] } ∧
    onDetected
      { currentCode := none, stored := none, priceInputValue := "",
        scannedCodeText := "", priceEntryHidden := true, scannerHtml := "live",
        displayed := [], scannerRunning := true, detectSubscribed := true,
        writes := [], alerts := [] } (some { codeResult := some { code := some "" } }) =
      { currentCode := none, stored := none, priceInputValue := "",
        scannedCodeText := "", priceEntryHidden := true, scannerHtml := "live",
        displayed := [], scannerRunning := true, detectSubscribed := true,
        writes := [], alerts := [] } :=
  ⟨(c9_no_code_noop _ none (by decide)).1,
   (c9_no_code_noop _ (some { codeResult := none }) (by decide)).1,
   (c9_no_code_noop _ (some { codeResult := some { code := some "" } }) (by decide)).1⟩

theorem wsChar_false_of_digit {c : Char} (h : c.isDigit = true) : wsChar c = false := by
  have hne : ∀ d : Char, d.isDigit = false → c ≠ d := by
    rintro d hd rfl
    rw [h] at hd
    exact Bool.noConfusion hd
  rw [wsChar]
  simp [hne ' ' (by decide), hne '\t' (by decide), hne '\n' (by decide), hne '\r' (by decide),
    hne '\x0b' (by decide), hne '\x0c' (by decide)]

/-- `parseFloat` on a decimal literal followed by arbitrary non-extending
characters parses the longest numeric prefix and ignores the tail. -/
theorem parseFloat_decimal_prefix (d1 d2 t : List Char)
    (hd1ne : d1 ≠ []) (hd1 : ∀ x ∈ d1, x.isDigit = true)
    (hd2 : ∀ x ∈ d2, x.isDigit = true)
    (ht : ∀ x, t.head? = some x → x.isDigit = false ∧ x ≠ 'e' ∧ x ≠ 'E') :
    parseFloat (String.mk (d1 ++ '.' :: (d2 ++ t))) = JsNum.fin (decValue false d1 d2 0) := by
  rcases d1 with _ | ⟨c, cs⟩
  · exact absurd rfl hd1ne
  have hcd : c.isDigit = true := hd1 c (List.mem_cons_self _ _)
  have hdrop : ((c :: cs) ++ '.' :: (d2 ++ t)).dropWhile wsChar =
      c :: (cs ++ '.' :: (d2 ++ t)) := by
    rw [List.cons_append, List.dropWhile_cons, wsChar_false_of_digit hcd]
    simp
  rw [parseFloat.eq_def,
    show (String.mk ((c :: cs) ++ '.' :: (d2 ++ t))).data = (c :: cs) ++ '.' :: (d2 ++ t)
      from rfl,
    hdrop]
  have hplus : c ≠ '+' := by
    rintro rfl
    exact absurd hcd (by decide)
  have hminus : c ≠ '-' := (isDigit_ne_chars hcd).1
  show (if c = '+' then parseFloatAfterSign false (cs ++ '.' :: (d2 ++ t))
    else if c = '-' then parseFloatAfterSign true (cs ++ '.' :: (d2 ++ t))
    else parseFloatAfterSign false (c :: (cs ++ '.' :: (d2 ++ t)))) = _
  rw [if_neg hplus, if_neg hminus, ← List.cons_append, parseFloatAfterSign]
  have hinf : ¬ ((c :: cs) ++ '.' :: (d2 ++ t)).take 8 = "Infinity".data := by
    rw [List.cons_append, List.take_succ_cons]
    intro hcon
    have : c = 'I' := (List.cons.injEq .. ▸ hcon).1
    subst this
    exact absurd hcd (by decide)
  rw [if_neg hinf]
  have hrd1 : readDigits ((c :: cs) ++ '.' :: (d2 ++ t)) =
      (c :: cs, '.' :: (d2 ++ t)) :=
    readDigits_eq hd1 (fun x hx => by
      simp only [List.head?_cons, Option.some.injEq] at hx
      subst hx
      decide)
  rw [hrd1]
  have hrd2 : readDigits (d2 ++ t) = (d2, t) :=
    readDigits_eq hd2 (fun x hx => (ht x hx).1)
  show (if ('.' : Char) = '.' then
      if (c :: cs) = [] && (readDigits (d2 ++ t)).1 = [] then JsNum.nan
      else JsNum.fin (decValue false (c :: cs) (readDigits (d2 ++ t)).1
        (readExpFloat (readDigits (d2 ++ t)).2))
    else if (c :: cs) = [] then JsNum.nan
    else JsNum.fin (decValue false (c :: cs) [] (readExpFloat ('.' :: (d2 ++ t))))) = _
  rw [if_pos rfl, hrd2]
  have hcond : ((c :: cs : List Char) = [] && (d2 : List Char) = []) = false := by
    simp
  rw [hcond]
  have hexp : readExpFloat t = 0 := by
    rcases t with _ | ⟨x, xs⟩
    · rfl
    · obtain ⟨_, hxe, hxE⟩ := ht x rfl
      simp [readExpFloat, hxe, hxE]
  rw [show (if false = true then JsNum.nan
      else JsNum.fin (decValue false (c :: cs) d2 (readExpFloat t))) =
    JsNum.fin (decValue false (c :: cs) d2 (readExpFloat t)) from rfl, hexp]

/-- C10: the save handler's numeric validation is prefix parsing, not
whole-string validation — for every price input built from a decimal
literal followed by non-extending trailing characters, and every valid
scanned code, the handler accepts the input and persists the value of the
numeric prefix. -/
theorem c10_prefix_parsing (st : AppState) (c : String) (m : Jobj) (d1 d2 t : List Char)
    (hd1ne : d1 ≠ []) (hd1 : ∀ x ∈ d1, x.isDigit = true)
    (hd2 : ∀ x ∈ d2, x.isDigit = true)
    (ht : ∀ x, t.head? = some x → x.isDigit = false ∧ x ≠ 'e' ∧ x ≠ 'E')
    (hinput : st.priceInputValue = String.mk (d1 ++ '.' :: (d2 ++ t)))
    (hcode : st.currentCode = some c) (hc : c ≠ "") (hkc : SafeKey c)
    (hparse : jsonParse (jsOr st.stored "\x7b\x7d") = some (.jobj m))
    (hm : LedgerObj m) (hnd : m.keys.Nodup) :
    parseFloat st.priceInputValue = JsNum.fin (decValue false d1 d2 0) ∧
    ∃ st', savePriceClick st = .ok st' ∧
      st'.stored = some (stringify (.jobj (m.setKey c (.jnum (.fin (decValue false d1 d2 0)))))) ∧
      (m.setKey c (.jnum (.fin (decValue false d1 d2 0)))).lookup c =
        some (.jnum (.fin (decValue false d1 d2 0))) := by
  have hpf : parseFloat st.priceInputValue = JsNum.fin (decValue false d1 d2 0) := by
    rw [hinput]
    exact parseFloat_decimal_prefix d1 d2 t hd1ne hd1 hd2 ht
  refine ⟨hpf, _, savePriceClick_writes hcode hc hkc hpf hparse hm hnd, rfl, ?_⟩
  rw [Jobj.lookup_setKey, if_pos rfl]

/-- C10 witness: the input `3.99abc` is accepted and persists `3.99`
(`399/100`). -/
theorem c10_witness :
    parseFloat "3.99abc" = JsNum.fin (decValue false ['3'] ['9', '9'] 0) ∧
    ∃ st', savePriceClick
      { currentCode := some "55", stored := some "\x7b\x7d", priceInputValue := "3.99abc",
        scannedCodeText := "55", priceEntryHidden := false, scannerHtml := "",
        displayed := [], scannerRunning := false, detectSubscribed := false,
        writes := [], alerts := [] } = .ok st' ∧
      st'.stored = some (stringify (.jobj (Jobj.nil.setKey "55"
        (.jnum (.fin (decValue false ['3'] ['9', '9'] 0)))))) ∧
      (Jobj.nil.setKey "55" (.jnum (.fin (decValue false ['3'] ['9', '9'] 0)))).lookup "55" =
        some (.jnum (.fin (decValue false ['3'] ['9', '9'] 0))) :=
  c10_prefix_parsing
    { currentCode := some "55", stored := some "\x7b\x7d", priceInputValue := "3.99abc",
      scannedCodeText := "55", priceEntryHidden := false, scannerHtml := "",
      displayed := [], scannerRunning := false, detectSubscribed := false,
      writes := [], alerts := [] } "55" Jobj.nil ['3'] ['9', '9'] "abc".data
    (by decide) (by decide) (by decide) (by decide)
    rfl rfl (by decide) (by decide) (by decide) (by decide) (by decide)

end PriceScanner

